import Mathlib

/-
Verification development for the context-compress CLI
(scripts/compress.ts).  The TypeScript source is shallowly embedded as
executable functions over List Char; strings are modelled as their
character lists.  JavaScript regular-expression behaviour (greedy and
lazy quantifiers, global replacement, backtracking) is translated into
explicit recursive scans.
-/

set_option maxRecDepth 8000

namespace ContextCompress

/- ── Character classes (JavaScript semantics) ──────────────────────── -/

/-- JavaScript whitespace (the set matched by the regex class backslash-s
and trimmed by String.prototype.trim): tab, LF, VT, FF, CR, space, NBSP,
Ogham space, the U+2000 block, LS, PS, narrow NBSP, MMSP, ideographic
space, and BOM. -/
def isJsWs (c : Char) : Bool :=
  c.toNat = 9 || c.toNat = 10 || c.toNat = 11 || c.toNat = 12 || c.toNat = 13 ||
  c.toNat = 32 || c.toNat = 160 || c.toNat = 0x1680 ||
  (0x2000 ≤ c.toNat && c.toNat ≤ 0x200A) ||
  c.toNat = 0x2028 || c.toNat = 0x2029 || c.toNat = 0x202F || c.toNat = 0x205F ||
  c.toNat = 0x3000 || c.toNat = 0xFEFF

/-- JavaScript line terminators (the characters NOT matched by the regex
dot): LF, CR, LS, PS. -/
def isLineTerm (c : Char) : Bool :=
  c.toNat = 10 || c.toNat = 13 || c.toNat = 0x2028 || c.toNat = 0x2029

/-- String.prototype.trim on a character list. -/
def jsTrim (s : List Char) : List Char :=
  ((s.dropWhile isJsWs).reverse.dropWhile isJsWs).reverse

/-- String.prototype.trimEnd on a character list. -/
def trimEnd (s : List Char) : List Char :=
  (s.reverse.dropWhile isJsWs).reverse

/-- String.prototype.split with separator LF: "a\nb" gives [a, b],
"a\n" gives [a, empty], the empty string gives [empty]. -/
def splitNl : List Char → List (List Char)
  | [] => [[]]
  | c :: t =>
    if c = '\n' then [] :: splitNl t
    else
      match splitNl t with
      | h :: r => (c :: h) :: r
      | [] => [[c]]

/-- Substring test (String.prototype.includes / an unanchored regex
literal). -/
def containsSub (p : List Char) : List Char → Bool
  | [] => p.isEmpty
  | s@(_ :: t) => p.isPrefixOf s || containsSub p t

/- ── Marker stripping (stripExistingMarker, compress.ts lines 162-168)

  new RegExp("\\n?<!-- TAG-START -->.*?<!-- TAG-END -->\\n?", "gs")
  content.replace(re, "\n").replace(three-or-more-LF, "\n\n").trimEnd()

The regex is embedded as an explicit scan: at each position we first try
to consume one LF (the greedy optional), then the literal start marker,
then lazily search for the first occurrence of the end marker, then one
optional LF.  Replacement is global. ──────────────────────────────── -/

def startMarker (tag : List Char) : List Char :=
  "<!-- ".data ++ tag ++ "-START -->".data

def endMarker (tag : List Char) : List Char :=
  "<!-- ".data ++ tag ++ "-END -->".data

/-- Lazy search for the first occurrence of pat; returns the remainder
after that occurrence. -/
def findEnd (pat : List Char) : List Char → Option (List Char)
  | [] => if pat.isPrefixOf ([] : List Char) then some [] else none
  | s@(_ :: t) =>
    if pat.isPrefixOf s then some (s.drop pat.length) else findEnd pat t

/-- Consume at most one leading LF (the trailing greedy optional LF of
the marker regex). -/
def dropOneNl : List Char → List Char
  | '\n' :: t => t
  | s => s

/-- Match the regex minus its leading optional LF at the head of s. -/
def matchCore (sM eM : List Char) (s : List Char) : Option (List Char) :=
  if sM.isPrefixOf s then
    match findEnd eM (s.drop sM.length) with
    | some r => some (dropOneNl r)
    | none => none
  else none

/-- Match the whole marker regex at the head of s (greedy optional
leading LF first, with backtracking). -/
def tryMatch (sM eM : List Char) (s : List Char) : Option (List Char) :=
  match s with
  | '\n' :: t =>
    match matchCore sM eM t with
    | some r => some r
    | none => matchCore sM eM s
  | _ => matchCore sM eM s

theorem findEnd_length_le (pat : List Char) (s r : List Char)
    (h : findEnd pat s = some r) : r.length ≤ s.length := by
  induction s with
  | nil =>
    unfold findEnd at h
    split at h
    · cases h; simp
    · cases h
  | cons c t ih =>
    unfold findEnd at h
    split at h
    · cases h
      simp [List.length_drop]
    · exact Nat.le_trans (ih h) (by simp)

theorem dropOneNl_length_le (s : List Char) : (dropOneNl s).length ≤ s.length := by
  unfold dropOneNl
  split <;> simp

theorem matchCore_length_lt (sM eM : List Char) (hsM : sM ≠ []) (s r : List Char)
    (h : matchCore sM eM s = some r) : r.length < s.length := by
  unfold matchCore at h
  split at h
  · rename_i hpre
    split at h
    · rename_i r0 hfe
      cases h
      have h1 := dropOneNl_length_le r0
      have h2 := findEnd_length_le eM _ _ hfe
      have h3 : (s.drop sM.length).length = s.length - sM.length := by
        simp [List.length_drop]
      have h4 : sM.length ≤ s.length := by
        have := List.isPrefixOf_iff_prefix.mp hpre
        exact this.length_le
      have h5 : 0 < sM.length := by
        cases sM with
        | nil => exact absurd rfl hsM
        | cons _ _ => simp
      omega
    · cases h
  · cases h

theorem tryMatch_length_lt (sM eM : List Char) (hsM : sM ≠ []) (s r : List Char)
    (h : tryMatch sM eM s = some r) : r.length < s.length := by
  unfold tryMatch at h
  split at h
  · rename_i t
    split at h
    · rename_i r0 hmc
      cases h
      have := matchCore_length_lt sM eM hsM t r hmc
      simp
      omega
    · exact matchCore_length_lt sM eM hsM _ r h
  · exact matchCore_length_lt sM eM hsM s r h

theorem startMarker_ne_nil (tag : List Char) : startMarker tag ≠ [] := by
  simp [startMarker]

/-- The scan loop of the global replacement, with explicit fuel so the
recursion is structural: every successful match consumes at least one
character, so fuel equal to the input length suffices. -/
def replGlobalGo (tag : List Char) : Nat → List Char → List Char
  | _, [] => []
  | 0, s => s
  | fuel + 1, c :: t =>
    match tryMatch (startMarker tag) (endMarker tag) (c :: t) with
    | some r => '\n' :: replGlobalGo tag fuel r
    | none => c :: replGlobalGo tag fuel t

/-- Global replacement of every match of the marker regex by a single
LF (String.prototype.replace with the g flag). -/
def replGlobal (tag : List Char) (s : List Char) : List Char :=
  replGlobalGo tag s.length s

theorem replGlobalGo_fuel (tag : List Char) :
    ∀ f1 f2 s, s.length ≤ f1 → s.length ≤ f2 →
      replGlobalGo tag f1 s = replGlobalGo tag f2 s := by
  intro f1
  induction f1 with
  | zero =>
    intro f2 s h1 h2
    have hs : s = [] := List.eq_nil_of_length_eq_zero (by omega)
    subst hs
    cases f2 <;> rfl
  | succ f ih =>
    intro f2 s h1 h2
    cases s with
    | nil => cases f2 <;> rfl
    | cons c t =>
      cases f2 with
      | zero => simp at h2
      | succ g =>
        simp only [replGlobalGo]
        cases htm : tryMatch (startMarker tag) (endMarker tag) (c :: t) with
        | some r =>
          have hr := tryMatch_length_lt _ _ (startMarker_ne_nil tag) _ _ htm
          simp only []
          rw [ih g r (by simp at h1 hr ⊢; omega) (by simp at h2 hr ⊢; omega)]
        | none =>
          simp only []
          rw [ih g t (by simp at h1; omega) (by simp at h2; omega)]

theorem replGlobal_nil (tag : List Char) : replGlobal tag [] = [] := rfl

/-- One-step unfolding of replGlobal on a non-empty input. -/
theorem replGlobal_cons_eq (tag : List Char) (c : Char) (t : List Char) :
    replGlobal tag (c :: t) =
      (match tryMatch (startMarker tag) (endMarker tag) (c :: t) with
       | some r => '\n' :: replGlobal tag r
       | none => c :: replGlobal tag t) := by
  show replGlobalGo tag (c :: t).length (c :: t) = _
  rw [List.length_cons]
  simp only [replGlobalGo]
  cases htm : tryMatch (startMarker tag) (endMarker tag) (c :: t) with
  | some r =>
    have hr := tryMatch_length_lt _ _ (startMarker_ne_nil tag) _ _ htm
    simp only []
    unfold replGlobal
    rw [replGlobalGo_fuel tag t.length r.length r (by simp at hr; omega) (le_refl _)]
  | none => rfl

theorem length_dropWhileChar_le (p : Char → Bool) (l : List Char) :
    (l.dropWhile p).length ≤ l.length :=
  (List.dropWhile_suffix p).length_le

/-- The run-collapsing loop with explicit fuel (each step consumes at
least one character). -/
def collapse3Go : Nat → List Char → List Char
  | _, [] => []
  | 0, s => s
  | fuel + 1, c :: t =>
    if c = '\n' then
      (if (t.takeWhile (fun d => d = '\n')).length = 0 then ['\n'] else ['\n', '\n'])
        ++ collapse3Go fuel (t.dropWhile (fun d => d = '\n'))
    else c :: collapse3Go fuel t

/-- Replace every run of three or more LF characters by exactly two
(the second .replace in stripExistingMarker). -/
def collapse3 (s : List Char) : List Char := collapse3Go s.length s

theorem collapse3Go_fuel :
    ∀ f1 f2 s, s.length ≤ f1 → s.length ≤ f2 →
      collapse3Go f1 s = collapse3Go f2 s := by
  intro f1
  induction f1 with
  | zero =>
    intro f2 s h1 h2
    have hs : s = [] := List.eq_nil_of_length_eq_zero (by omega)
    subst hs
    cases f2 <;> rfl
  | succ f ih =>
    intro f2 s h1 h2
    cases s with
    | nil => cases f2 <;> rfl
    | cons c t =>
      cases f2 with
      | zero => simp at h2
      | succ g =>
        simp only [collapse3Go]
        have hdw := length_dropWhileChar_le (fun d => d = '\n') t
        by_cases hc : c = '\n'
        · rw [if_pos hc, if_pos hc]
          rw [ih g _ (by simp at h1; omega) (by simp at h2; omega)]
        · rw [if_neg hc, if_neg hc]
          rw [ih g t (by simp at h1; omega) (by simp at h2; omega)]

theorem collapse3_nil : collapse3 [] = [] := rfl

/-- One-step unfolding of collapse3 on a non-empty input. -/
theorem collapse3_cons_eq (c : Char) (t : List Char) :
    collapse3 (c :: t) =
      (if c = '\n' then
        (if (t.takeWhile (fun d => d = '\n')).length = 0 then ['\n'] else ['\n', '\n'])
          ++ collapse3 (t.dropWhile (fun d => d = '\n'))
      else c :: collapse3 t) := by
  show collapse3Go (c :: t).length (c :: t) = _
  rw [List.length_cons]
  simp only [collapse3Go]
  have hdw := length_dropWhileChar_le (fun d => d = '\n') t
  by_cases hc : c = '\n'
  · rw [if_pos hc, if_pos hc]
    unfold collapse3
    rw [collapse3Go_fuel t.length _ _ (by omega) (le_refl _)]
  · rw [if_neg hc, if_neg hc]
    unfold collapse3
    rw [collapse3Go_fuel t.length t.length t (le_refl _) (le_refl _)]

/-- The induction principle following the recursion pattern of
collapse3. -/
theorem collapse3_induction (motive : List Char → Prop) (h1 : motive [])
    (h2 : ∀ t, motive (t.dropWhile (fun d => d = '\n')) → motive ('\n' :: t))
    (h3 : ∀ c t, ¬ c = '\n' → motive t → motive (c :: t)) (s : List Char) :
    motive s := by
  have H : ∀ n (s : List Char), s.length ≤ n → motive s := by
    intro n
    induction n with
    | zero =>
      intro s hs
      have : s = [] := List.eq_nil_of_length_eq_zero (by omega)
      subst this
      exact h1
    | succ n ih =>
      intro s hs
      cases s with
      | nil => exact h1
      | cons c t =>
        by_cases hc : c = '\n'
        · subst hc
          refine h2 t (ih _ ?_)
          have := length_dropWhileChar_le (fun d => d = '\n') t
          simp at hs
          omega
        · refine h3 c t hc (ih t ?_)
          simp at hs
          omega
  exact H s.length s (le_refl _)

/-- stripExistingMarker (compress.ts lines 162-168). -/
def stripExistingMarker (content tag : List Char) : List Char :=
  trimEnd (collapse3 (replGlobal tag content))

/- ── Front matter (stripFrontmatter / parseFrontmatter, lines 56-70) ── -/

/-- Greedy optional CR then greedy optional LF (the tail of the
stripFrontmatter regex). -/
def consumeFmTail : List Char → List Char
  | '\r' :: v =>
    match v with
    | '\n' :: w => w
    | _ => v
  | '\n' :: v => v
  | s => s

/-- Lazy scan for the closing CR?-LF-dash-dash-dash of a front-matter
block; returns the text after the whole match. -/
def sfScan : List Char → Option (List Char)
  | [] => none
  | s@(_ :: t) =>
    if ("\r\n---".data).isPrefixOf s then some (consumeFmTail (s.drop 5))
    else if ("\n---".data).isPrefixOf s then some (consumeFmTail (s.drop 4))
    else sfScan t

/-- stripFrontmatter (lines 56-59): drop a leading front-matter block if
the anchored regex matches, otherwise return the content unchanged. -/
def stripFrontmatter (content : List Char) : List Char :=
  match content with
  | '-' :: '-' :: '-' :: rest =>
    match rest with
    | '\r' :: '\n' :: r =>
      match sfScan r with
      | some tail => tail
      | none => content
    | '\n' :: r =>
      match sfScan r with
      | some tail => tail
      | none => content
    | _ => content
  | _ => content

/-- Lazy scan returning the text strictly between the front-matter
delimiters (group 1 of the parseFrontmatter regex). -/
def fmGroupScan (accRev : List Char) : List Char → Option (List Char)
  | [] => none
  | s@(c :: t) =>
    if ("\r\n---".data).isPrefixOf s then some accRev.reverse
    else if ("\n---".data).isPrefixOf s then some accRev.reverse
    else fmGroupScan (c :: accRev) t

def fmGroup (content : List Char) : Option (List Char) :=
  match content with
  | '-' :: '-' :: '-' :: rest =>
    match rest with
    | '\r' :: '\n' :: r => fmGroupScan [] r
    | '\n' :: r => fmGroupScan [] r
    | _ => none
  | _ => none

def isWordChar (c : Char) : Bool :=
  (97 ≤ c.toNat && c.toNat ≤ 122) || (65 ≤ c.toNat && c.toNat ≤ 90) ||
  (48 ≤ c.toNat && c.toNat ≤ 57) || c.toNat = 95

/-- Greedy dot-plus capture: the maximal run of non-line-terminator
characters. -/
def dotRun (s : List Char) : List Char := s.takeWhile (fun c => !isLineTerm c)

/-- Backtracking search for (ws-star)(dot-plus): the whitespace run is
tried greedily from length k downward, including length zero. -/
def wsStarDotSearch (v : List Char) : Nat → Option (List Char)
  | 0 =>
    (match v with
     | c :: _ => if isLineTerm c then none else some (dotRun v)
     | [] => none)
  | k + 1 =>
    match v.drop (k + 1) with
    | c :: _ =>
      if isLineTerm c then wsStarDotSearch v k else some (dotRun (v.drop (k + 1)))
    | [] => wsStarDotSearch v k

/-- Backtracking search for (ws-plus)(dot-plus): as above but the
whitespace run must keep length at least one. -/
def wsPlusDotSearch (v : List Char) : Nat → Option (List Char)
  | 0 => none
  | k + 1 =>
    match v.drop (k + 1) with
    | c :: _ =>
      if isLineTerm c then wsPlusDotSearch v k else some (dotRun (v.drop (k + 1)))
    | [] => wsPlusDotSearch v k

/-- Match of the regex fragment ws-plus dot-plus against v, group 1 of
the heading and bullet patterns. -/
def matchWsPlusDotPlus (v : List Char) : Option (List Char) :=
  wsPlusDotSearch v (v.takeWhile isJsWs).length

/-- The key-colon-value line pattern of parseFrontmatter (line 66):
word-char key run, a colon, optional whitespace, then a non-empty rest. -/
def kvMatch (l : List Char) : Option (List Char × List Char) :=
  match l with
  | c :: t =>
    if isWordChar c then
      let run := t.takeWhile (fun d => isWordChar d || d = '-')
      match t.drop run.length with
      | ':' :: v =>
        match wsStarDotSearch v (v.takeWhile isJsWs).length with
        | some g2 => some (jsTrim (c :: run), jsTrim g2)
        | none => none
      | _ => none
    else none
  | [] => none

/-- JavaScript plain-object insertion: a fresh key is appended, an
existing key keeps its position and its value is overwritten. -/
def setField (k v : List Char) : List (List Char × List Char) → List (List Char × List Char)
  | [] => [(k, v)]
  | (k', v') :: t => if k' = k then (k, v) :: t else (k', v') :: setField k v t

/-- parseFrontmatter (lines 61-70). -/
def parseFrontmatter (content : List Char) : List (List Char × List Char) :=
  match fmGroup content with
  | none => []
  | some g =>
    (splitNl g).foldl
      (fun acc line =>
        match kvMatch line with
        | some (k, v) => setField k v acc
        | none => acc) []

/- ── Structural parser (parseSections, lines 72-115) ─────────────── -/

structure Section where
  header : List Char
  fields : List (List Char × List Char)
  bullets : List (List Char)
  prose : List Char
deriving Repr, DecidableEq

/-- The heading pattern (line 79): two hash marks, whitespace, a
non-empty dot-run; group 1 before trimming. -/
def headerMatch (l : List Char) : Option (List Char) :=
  match l with
  | '#' :: '#' :: v => matchWsPlusDotPlus v
  | _ => none

/-- The plain bullet pattern (line 102); group 1 before trimming. -/
def bulletMatch (l : List Char) : Option (List Char) :=
  match l with
  | c :: v => if c = '-' || c = '*' then matchWsPlusDotPlus v else none
  | [] => none

/-- Continuation test inside the emphasized-label group: an optional
colon (greedy) followed by the closing star pair. -/
def fieldContAt : List Char → Option (List Char)
  | ':' :: '*' :: '*' :: r => some r
  | '*' :: '*' :: r => some r
  | _ => none

/-- Lazy expansion of the label group: grow one non-star character at a
time, testing the continuation first at each length of at least one. -/
def fieldG1go (accRev : List Char) : List Char → Option (List Char × List Char)
  | [] => none
  | rem@(c :: t) =>
    match fieldContAt rem with
    | some r => some (accRev.reverse, r)
    | none => if c = '*' then none else fieldG1go (c :: accRev) t

def fieldG1 (u : List Char) : Option (List Char × List Char) :=
  match u with
  | [] => none
  | c :: t => if c = '*' then none else fieldG1go [c] t

/-- One .replace of the trailing-colon anchor: drop a single final
colon. -/
def stripTrailingColon (s : List Char) : List Char :=
  match s.reverse with
  | ':' :: r => r.reverse
  | _ => s

/-- The field pattern (lines 92-94): bullet mark, whitespace, starred
label with optional colon, colon-or-whitespace run, optional value.
Returns the key and value after the post-processing of lines 96-97. -/
def fieldMatch (l : List Char) : Option (List Char × List Char) :=
  match l with
  | c :: v =>
    if c = '-' || c = '*' then
      let wn := (v.takeWhile isJsWs).length
      if wn = 0 then none
      else
        match v.drop wn with
        | '*' :: '*' :: u =>
          match fieldG1 u with
          | some (g1, r) =>
            let r2 := r.dropWhile (fun d => d = ':' || isJsWs d)
            let g2 : List Char :=
              match r2 with
              | [] => []
              | d :: _ => if isLineTerm d then [] else r2.takeWhile (fun e => !isLineTerm e)
            some (stripTrailingColon (jsTrim g1), jsTrim g2)
          | none => none
        | _ => none
    else none
  | [] => none

/-- The line loop of parseSections (lines 78-113). -/
def parseLoop : List (List Char) → Option Section → List Section → List Section
  | [], cur, acc =>
    (match cur with
     | some s => acc ++ [s]
     | none => acc)
  | l :: ls, cur, acc =>
    match headerMatch l with
    | some g =>
      parseLoop ls (some ⟨jsTrim g, [], [], []⟩)
        (match cur with
         | some s => acc ++ [s]
         | none => acc)
    | none =>
      match cur with
      | none => parseLoop ls none acc
      | some s =>
        match fieldMatch l with
        | some (k, v) =>
          parseLoop ls (some ⟨s.header, setField k v s.fields, s.bullets, s.prose⟩) acc
        | none =>
          match bulletMatch l with
          | some b =>
            parseLoop ls (some ⟨s.header, s.fields, s.bullets ++ [jsTrim b], s.prose⟩) acc
          | none =>
            let t := jsTrim l
            if t.isEmpty then parseLoop ls (some s) acc
            else
              parseLoop ls
                (some ⟨s.header, s.fields, s.bullets,
                  s.prose ++ (if s.prose.isEmpty then [] else [' ']) ++ t⟩) acc

/-- parseSections (lines 72-115). -/
def parseSections (content : List Char) : List Section :=
  parseLoop (splitNl (stripFrontmatter content)) none []

/- ── Slug normalization (slugify / slugifyValue, lines 117-132) ───── -/

/-- The punctuation class removed by both slug functions: star,
underscore, backtick, hash, brackets, parentheses. -/
def isSlugPunct (c : Char) : Bool :=
  c.toNat = 42 || c.toNat = 95 || c.toNat = 96 || c.toNat = 35 ||
  c.toNat = 91 || c.toNat = 93 || c.toNat = 40 || c.toNat = 41

/-- The whitespace-run loop with explicit fuel. -/
def wsRunsToHyphenGo : Nat → List Char → List Char
  | _, [] => []
  | 0, s => s
  | fuel + 1, c :: t =>
    if isJsWs c then '-' :: wsRunsToHyphenGo fuel (t.dropWhile isJsWs)
    else c :: wsRunsToHyphenGo fuel t

/-- Replace every whitespace run by a single hyphen. -/
def wsRunsToHyphen (s : List Char) : List Char := wsRunsToHyphenGo s.length s

theorem wsRunsToHyphenGo_fuel :
    ∀ f1 f2 s, s.length ≤ f1 → s.length ≤ f2 →
      wsRunsToHyphenGo f1 s = wsRunsToHyphenGo f2 s := by
  intro f1
  induction f1 with
  | zero =>
    intro f2 s h1 h2
    have hs : s = [] := List.eq_nil_of_length_eq_zero (by omega)
    subst hs
    cases f2 <;> rfl
  | succ f ih =>
    intro f2 s h1 h2
    cases s with
    | nil => cases f2 <;> rfl
    | cons c t =>
      cases f2 with
      | zero => simp at h2
      | succ g =>
        simp only [wsRunsToHyphenGo]
        have hdw := length_dropWhileChar_le isJsWs t
        by_cases hc : isJsWs c
        · rw [if_pos hc, if_pos hc]
          rw [ih g _ (by simp at h1; omega) (by simp at h2; omega)]
        · rw [if_neg hc, if_neg hc]
          rw [ih g t (by simp at h1; omega) (by simp at h2; omega)]

theorem wsRunsToHyphen_nil : wsRunsToHyphen [] = [] := rfl

theorem wsRunsToHyphen_cons_eq (c : Char) (t : List Char) :
    wsRunsToHyphen (c :: t) =
      (if isJsWs c then '-' :: wsRunsToHyphen (t.dropWhile isJsWs)
       else c :: wsRunsToHyphen t) := by
  show wsRunsToHyphenGo (c :: t).length (c :: t) = _
  rw [List.length_cons]
  simp only [wsRunsToHyphenGo]
  have hdw := length_dropWhileChar_le isJsWs t
  by_cases hc : isJsWs c
  · rw [if_pos hc, if_pos hc]
    unfold wsRunsToHyphen
    rw [wsRunsToHyphenGo_fuel t.length _ _ (by omega) (le_refl _)]
  · rw [if_neg hc, if_neg hc]
    unfold wsRunsToHyphen
    rw [wsRunsToHyphenGo_fuel t.length t.length t (le_refl _) (le_refl _)]

theorem wsRunsToHyphen_induction (motive : List Char → Prop) (h1 : motive [])
    (h2 : ∀ c t, isJsWs c = true → motive (t.dropWhile isJsWs) → motive (c :: t))
    (h3 : ∀ c t, ¬ isJsWs c = true → motive t → motive (c :: t)) (s : List Char) :
    motive s := by
  have H : ∀ n (s : List Char), s.length ≤ n → motive s := by
    intro n
    induction n with
    | zero =>
      intro s hs
      have : s = [] := List.eq_nil_of_length_eq_zero (by omega)
      subst this
      exact h1
    | succ n ih =>
      intro s hs
      cases s with
      | nil => exact h1
      | cons c t =>
        by_cases hc : isJsWs c
        · refine h2 c t hc (ih _ ?_)
          have := length_dropWhileChar_le isJsWs t
          simp at hs
          omega
        · refine h3 c t hc (ih t ?_)
          simp at hs
          omega
  exact H s.length s (le_refl _)

def isSlugChar (c : Char) : Bool :=
  (97 ≤ c.toNat && c.toNat ≤ 122) || (48 ≤ c.toNat && c.toNat ≤ 57) || c.toNat = 45

/-- The hyphen-run loop with explicit fuel. -/
def collapseHyphensGo : Nat → List Char → List Char
  | _, [] => []
  | 0, s => s
  | fuel + 1, c :: t =>
    if c = '-' then '-' :: collapseHyphensGo fuel (t.dropWhile (fun d => d = '-'))
    else c :: collapseHyphensGo fuel t

/-- Collapse every hyphen run to a single hyphen. -/
def collapseHyphens (s : List Char) : List Char := collapseHyphensGo s.length s

theorem collapseHyphensGo_fuel :
    ∀ f1 f2 s, s.length ≤ f1 → s.length ≤ f2 →
      collapseHyphensGo f1 s = collapseHyphensGo f2 s := by
  intro f1
  induction f1 with
  | zero =>
    intro f2 s h1 h2
    have hs : s = [] := List.eq_nil_of_length_eq_zero (by omega)
    subst hs
    cases f2 <;> rfl
  | succ f ih =>
    intro f2 s h1 h2
    cases s with
    | nil => cases f2 <;> rfl
    | cons c t =>
      cases f2 with
      | zero => simp at h2
      | succ g =>
        simp only [collapseHyphensGo]
        have hdw := length_dropWhileChar_le (fun d => d = '-') t
        by_cases hc : c = '-'
        · rw [if_pos hc, if_pos hc]
          rw [ih g _ (by simp at h1; omega) (by simp at h2; omega)]
        · rw [if_neg hc, if_neg hc]
          rw [ih g t (by simp at h1; omega) (by simp at h2; omega)]

theorem collapseHyphens_nil : collapseHyphens [] = [] := rfl

theorem collapseHyphens_cons_eq (c : Char) (t : List Char) :
    collapseHyphens (c :: t) =
      (if c = '-' then '-' :: collapseHyphens (t.dropWhile (fun d => d = '-'))
       else c :: collapseHyphens t) := by
  show collapseHyphensGo (c :: t).length (c :: t) = _
  rw [List.length_cons]
  simp only [collapseHyphensGo]
  have hdw := length_dropWhileChar_le (fun d => d = '-') t
  by_cases hc : c = '-'
  · rw [if_pos hc, if_pos hc]
    unfold collapseHyphens
    rw [collapseHyphensGo_fuel t.length _ _ (by omega) (le_refl _)]
  · rw [if_neg hc, if_neg hc]
    unfold collapseHyphens
    rw [collapseHyphensGo_fuel t.length t.length t (le_refl _) (le_refl _)]

theorem collapseHyphens_induction (motive : List Char → Prop) (h1 : motive [])
    (h2 : ∀ t, motive (t.dropWhile (fun d => d = '-')) → motive ('-' :: t))
    (h3 : ∀ c t, ¬ c = '-' → motive t → motive (c :: t)) (s : List Char) :
    motive s := by
  have H : ∀ n (s : List Char), s.length ≤ n → motive s := by
    intro n
    induction n with
    | zero =>
      intro s hs
      have : s = [] := List.eq_nil_of_length_eq_zero (by omega)
      subst this
      exact h1
    | succ n ih =>
      intro s hs
      cases s with
      | nil => exact h1
      | cons c t =>
        by_cases hc : c = '-'
        · subst hc
          refine h2 t (ih _ ?_)
          have := length_dropWhileChar_le (fun d => d = '-') t
          simp at hs
          omega
        · refine h3 c t hc (ih t ?_)
          simp at hs
          omega
  exact H s.length s (le_refl _)

/-- The global replace of the edge-hyphen alternation: one leading and
one trailing hyphen are removed. -/
def stripEdgeHyphens (s : List Char) : List Char :=
  let s1 :=
    match s with
    | '-' :: t => t
    | _ => s
  match s1.reverse with
  | '-' :: r => r.reverse
  | _ => s1

/-- slugify (lines 117-125). -/
def slugify (text : List Char) : List Char :=
  stripEdgeHyphens (collapseHyphens
    ((wsRunsToHyphen ((text.map Char.toLower).filter (fun c => !isSlugPunct c))).filter
      isSlugChar))

/-- slugifyValue (lines 127-132). -/
def slugifyValue (text : List Char) : List Char :=
  jsTrim (wsRunsToHyphen (text.filter (fun c => !isSlugPunct c)))

/- ── Serializer (serializeSections, lines 134-160) ────────────────── -/

def joinSep (sep : List Char) : List (List Char) → List Char
  | [] => []
  | [x] => x
  | x :: xs => x ++ sep ++ joinSep sep xs

/-- One field entry: slug key, colon, slug value. -/
def fieldEntry (kv : List Char × List Char) : List Char :=
  slugify kv.1 ++ ':' :: slugifyValue kv.2

/-- The entries of one section: fields, then bullets, falling back to
the first 120 characters of prose when both are absent. -/
def sectionEntries (sec : Section) : List (List Char) :=
  let es := sec.fields.map fieldEntry ++ sec.bullets.map slugifyValue
  if es.isEmpty && !sec.prose.isEmpty then [slugifyValue (sec.prose.take 120)]
  else es

/-- The pipe-separated group a section contributes, empty when it has no
entries. -/
def groupOf (sec : Section) : List Char :=
  let es := sectionEntries sec
  if es.isEmpty then []
  else '|' :: ((slugify sec.header).map Char.toUpper) ++ ":\x7b".data
    ++ joinSep [','] es ++ ['\x7d']

/-- serializeSections (lines 134-160). -/
def serializeSections (tag title : List Char) (sections : List Section) : List Char :=
  startMarker tag ++ ('[' :: title ++ [']'])
    ++ (sections.map groupOf).flatten
    ++ endMarker tag

/- ── Classifier (classifySection / CATEGORY_PATTERNS, 172-197) ────── -/

inductive Category
  | preferences
  | decisions
  | facts
  | entities
  | lessons
  | todos
  | opinions
deriving Repr, DecidableEq

def matchAnySub (pats : List (List Char)) (s : List Char) : Bool :=
  pats.any (fun p => containsSub p s)

/-- The follow-dot-optional-up alternative of the todos pattern. -/
def followUpMatch : List Char → Bool
  | [] => false
  | s@(_ :: t) =>
    (("follow".data).isPrefixOf s &&
      (("up".data).isPrefixOf (s.drop 6) ||
        (match s.drop 6 with
         | c :: r2 => !isLineTerm c && ("up".data).isPrefixOf r2
         | [] => false)))
    || followUpMatch t

def prefPat (s : List Char) : Bool :=
  matchAnySub ["prefer".data, "style".data, "convention".data, "setting".data,
    "config".data] s

def decPat (s : List Char) : Bool :=
  matchAnySub ["decid".data, "decision".data, "chose".data, "choice".data,
    "approach".data, "architect".data] s

def factPat (s : List Char) : Bool :=
  matchAnySub ["fact".data, "reference".data, "version".data, "url".data,
    "path".data, "endpoint".data, "api".data] s

def entPat (s : List Char) : Bool :=
  matchAnySub ["people".data, "person".data, "entity".data, "contact".data,
    "team".data, "org".data] s

def lesPat (s : List Char) : Bool :=
  matchAnySub ["lesson".data, "learn".data, "gotcha".data, "caveat".data,
    "debug".data, "workaround".data, "fix".data] s

def todoPat (s : List Char) : Bool :=
  matchAnySub ["todo".data, "task".data, "reminder".data, "pending".data,
    "backlog".data] s || followUpMatch s

def opPat (s : List Char) : Bool :=
  matchAnySub ["opinion".data, "feel".data, "think".data, "belief".data,
    "stance".data, "dislike".data, "avoid".data] s

/-- classifySection (lines 191-197): lower-case the header, test the
patterns in insertion order, default to facts. -/
def classifySection (header : List Char) : Category :=
  let text := header.map Char.toLower
  if prefPat text then .preferences
  else if decPat text then .decisions
  else if factPat text then .facts
  else if entPat text then .entities
  else if lesPat text then .lessons
  else if todoPat text then .todos
  else if opPat text then .opinions
  else .facts

/- ── File-system effects ──────────────────────────────────────────────
The three workflow entry points are embedded as pure functions from
their inputs (directory listings and file contents, which the script
obtains through fs) to the list of file-system effects they perform, in
program order.  writeFile and copyFile (lines 205-221) return early
under the dry-run flag, so their effects are conditional on it. ───── -/

inductive Effect
  | write (path content : List Char)
  | copy (src dst : List Char)
  | unlink (path : List Char)
  | warn (file : List Char) (size : Nat)
deriving Repr, DecidableEq

/-- writeFile (lines 205-212): suppressed entirely under dry-run. -/
def writeEff (dryRun : Bool) (p content : List Char) : List Effect :=
  if dryRun then [] else [.write p content]

/-- copyFile (lines 214-221): suppressed entirely under dry-run. -/
def copyEff (dryRun : Bool) (src dst : List Char) : List Effect :=
  if dryRun then [] else [.copy src dst]

/- ── Section A: memory consolidation (lines 246-391) ──────────────── -/

/-- The insertion order of the categorized record (lines 293-301),
which Object.keys and Object.entries preserve. -/
def catOrder : List Category :=
  [.preferences, .decisions, .facts, .entities, .lessons, .todos, .opinions]

def catName : Category → List Char
  | .preferences => "preferences".data
  | .decisions => "decisions".data
  | .facts => "facts".data
  | .entities => "entities".data
  | .lessons => "lessons".data
  | .todos => "todos".data
  | .opinions => "opinions".data

/-- catShort (lines 347-355). -/
def catShort : Category → List Char
  | .preferences => "PREF".data
  | .decisions => "DECISION".data
  | .facts => "FACT".data
  | .entities => "ENTITY".data
  | .lessons => "LESSON".data
  | .todos => "TODO".data
  | .opinions => "OPINION".data

structure MemEntry where
  name : List Char
  isFile : Bool
  content : List Char
  ageMs : Nat

/-- The observable inputs of runMemoryConsolidation: whether memory/
exists, the current MEMORY.md, the directory entries of memory/ with
their ages, the existing per-category detail files, and the timestamp
string. -/
structure MemInput where
  memoryDirExists : Bool
  memoryMd : Option (List Char)
  entries : List MemEntry
  compressed : Category → Option (List Char)
  ts : List Char

def TWELVE_HOURS : Nat := 12 * 60 * 60 * 1000

/-- The daily-file filter (lines 267-283): plain markdown files other
than MEMORY.md, at least twelve hours old. -/
def dailyFilesOf (input : MemInput) : List MemEntry :=
  input.entries.filter (fun e =>
    e.isFile && (".md".data).isSuffixOf e.name &&
    e.name ≠ "MEMORY.md".data && !(e.ageMs < TWELVE_HOURS))

/-- Push one section onto its category (lines 308-311). -/
def pushSection (m : Category → List Section) (sec : Section) :
    Category → List Section :=
  fun cat => if cat = classifySection sec.header then m cat ++ [sec] else m cat

/-- Parse every daily file and classify its sections (lines 303-312). -/
def buildCategorized (contents : List (List Char)) : Category → List Section :=
  contents.foldl (fun m content => (parseSections content).foldl pushSection m)
    (fun _ => [])

/-- The merge step (lines 314-321): sections recovered from the existing
detail file precede the newly classified ones. -/
def mergedCategorized (input : MemInput) : Category → List Section :=
  fun cat =>
    let fresh := buildCategorized ((dailyFilesOf input).map MemEntry.content)
    match input.compressed cat with
    | some c => parseSections c ++ fresh cat
    | none => fresh cat

def capitalizeFirst : List Char → List Char
  | [] => []
  | c :: t => Char.toUpper c :: t

/-- The human-readable reconstruction of one section in a detail file
(lines 328-338). -/
def detailSection (sec : Section) : List Char :=
  "## ".data ++ sec.header ++ "\n\n".data
  ++ (sec.fields.map (fun kv => "- **".data ++ kv.1 ++ ":** ".data ++ kv.2 ++ ['\n'])).flatten
  ++ (sec.bullets.map (fun b => "- ".data ++ b ++ ['\n'])).flatten
  ++ (if sec.prose.isEmpty then [] else '\n' :: (sec.prose ++ ['\n']))
  ++ ['\n']

/-- One detail file (lines 326-338). -/
def detailContent (cat : Category) (sections : List Section) : List Char :=
  '#' :: ' ' :: capitalizeFirst (catName cat) ++ "\n\n".data
  ++ (sections.map detailSection).flatten

/-- One category segment of the memory index (lines 356-364): the
detail-file name followed by the first eight slugified headers. -/
def catSummary (cat : Category) (sections : List Section) : List Char :=
  catShort cat ++ ":\x7b".data ++ catName cat ++ ".md,".data
  ++ joinSep [','] ((sections.map (fun s => slugify s.header)).take 8) ++ ['\x7d']

/-- The single-line memory index (lines 346-369). -/
def indexLineOf (merged : Category → List Section) : List Char :=
  let sums := (catOrder.filter (fun cat => !(merged cat).isEmpty)).map
    (fun cat => catSummary cat (merged cat))
  "<!-- MEMORY-INDEX-START -->[Memory Index]|root:./memory/compressed|Read file for full context.".data
  ++ (if sums.isEmpty then [] else '|' :: joinSep ['|'] sums)
  ++ "<!-- MEMORY-INDEX-END -->".data

/-- runMemoryConsolidation (lines 246-391) as an effect trace. -/
def runMemoryConsolidation (dryRun : Bool) (input : MemInput) : List Effect :=
  if !input.memoryDirExists then []
  else
    let backup :=
      match input.memoryMd with
      | some _ =>
        copyEff dryRun "MEMORY.md".data
          ("memory/archive/MEMORY-".data ++ input.ts ++ ".md".data)
      | none => []
    let dailies := dailyFilesOf input
    if dailies.isEmpty then backup
    else
      let merged := mergedCategorized input
      let detailWrites :=
        ((catOrder.filter (fun cat => !(merged cat).isEmpty)).map
          (fun cat =>
            writeEff dryRun ("memory/compressed/".data ++ catName cat ++ ".md".data)
              (detailContent cat (merged cat)))).flatten
      let indexLine := indexLineOf merged
      let indexWrite := writeEff dryRun "MEMORY.md".data (indexLine ++ ['\n'])
      let warnEffs :=
        if indexLine.length > 4096 then [Effect.warn "MEMORY.md".data indexLine.length]
        else []
      let archive :=
        (dailies.map (fun f =>
          copyEff dryRun ("memory/".data ++ f.name) ("memory/archive/".data ++ f.name)
          ++ (if dryRun then [] else [Effect.unlink ("memory/".data ++ f.name)]))).flatten
      backup ++ detailWrites ++ indexWrite ++ warnEffs ++ archive

/- ── Section B: bootstrap compression (lines 395-452) ─────────────── -/

/-- String.prototype.replace with a plain-string pattern: first
occurrence only. -/
def replaceFirst (pat repl : List Char) : List Char → List Char
  | [] => if pat.isPrefixOf ([] : List Char) then repl else []
  | s@(c :: t) =>
    if pat.isPrefixOf s then repl ++ s.drop pat.length
    else c :: replaceFirst pat repl t

def BOOTSTRAP_FILES : List (List Char) :=
  ["SOUL.md".data, "IDENTITY.md".data, "USER.md".data, "AGENTS.md".data,
    "HEARTBEAT.md".data]

/-- The content written back to a bootstrap file (lines 427-440): the
marker-stripped text, a blank line, the fresh compressed block, LF. -/
def bootstrapNewContent (tag title content : List Char) : List Char :=
  let clean := stripExistingMarker content tag
  clean ++ "\n\n".data ++ serializeSections tag title (parseSections clean) ++ ['\n']

/-- The per-file body of runBootstrapCompression (lines 409-449) as an
effect trace: backup, size warning, write. -/
def bootstrapFileTrace (dryRun : Bool) (ts filename : List Char)
    (content : Option (List Char)) : List Effect :=
  match content with
  | none => []
  | some content =>
    let title := replaceFirst ".md".data [] filename
    let tag := title.map Char.toUpper
    let clean := stripExistingMarker content tag
    let compressed := serializeSections tag title (parseSections clean)
    copyEff dryRun filename
      ("memory/archive/".data ++ title ++ '-' :: ts ++ ".md".data)
    ++ (if compressed.length > 2048 then [Effect.warn filename compressed.length] else [])
    ++ writeEff dryRun filename (clean ++ "\n\n".data ++ compressed ++ ['\n'])

/-- runBootstrapCompression (lines 403-452): the fixed file list, each
present file processed in order. -/
def runBootstrapCompression (dryRun : Bool) (ts : List Char)
    (files : List Char → Option (List Char)) : List Effect :=
  (BOOTSTRAP_FILES.map (fun name => bootstrapFileTrace dryRun ts name (files name))).flatten

/- ── Section C: skill index (lines 456-523) ───────────────────────── -/

def isUpperChar (c : Char) : Bool := 65 ≤ c.toNat && c.toNat ≤ 90

def isEnvChar (c : Char) : Bool :=
  (65 ≤ c.toNat && c.toNat ≤ 90) || (48 ≤ c.toNat && c.toNat ≤ 57) || c.toNat = 95

/-- The env-var scan loop with explicit fuel. -/
def envScanGo : Nat → List Char → List (List Char)
  | _, [] => []
  | 0, _ => []
  | fuel + 1, c :: t =>
    if isUpperChar c then
      let run := t.takeWhile isEnvChar
      if run.length ≥ 2 then (c :: run) :: envScanGo fuel (t.dropWhile isEnvChar)
      else envScanGo fuel t
    else envScanGo fuel t

/-- Global scan of the env-var pattern (line 487): an upper-case letter
followed by at least two chars of the env class, taken greedily. -/
def envScan (s : List Char) : List (List Char) := envScanGo s.length s

/-- Spread of a Set built from a list: first occurrences, in order. -/
def dedupFirstGo (seen : List (List Char)) : List (List Char) → List (List Char)
  | [] => []
  | x :: xs =>
    if seen.contains x then dedupFirstGo seen xs
    else x :: dedupFirstGo (x :: seen) xs

def dedupFirst (l : List (List Char)) : List (List Char) := dedupFirstGo [] l

def lookupFm (key : List Char) : List (List Char × List Char) → Option (List Char)
  | [] => none
  | (k, v) :: t => if k = key then some v else lookupFm key t

/-- JavaScript or-else on a possibly missing string: the empty string is
falsy. -/
def falsyOr (v : Option (List Char)) (dflt : List Char) : List Char :=
  match v with
  | some s => if s.isEmpty then dflt else s
  | none => dflt

/-- One skill entry (lines 481-496). -/
def skillEntry (dirName content : List Char) : List Char :=
  let fm := parseFrontmatter content
  let name := falsyOr (lookupFm "name".data fm) dirName
  let cmd := falsyOr (lookupFm "command".data fm) []
  let envVars :=
    ((dedupFirst (envScan content)).filter
      (fun e => e.contains '_' && e.length > 3)).take 5
  name ++ ":\x7bSKILL.md\x7d".data
  ++ (if cmd.isEmpty then [] else ",cmd:".data ++ cmd)
  ++ (if envVars.isEmpty then [] else ",env:".data ++ joinSep [','] envVars)

structure SkillDir where
  name : List Char
  skillMd : Option (List Char)

/-- The skill index line (lines 505-508). -/
def skillIndexLine (entries : List (List Char)) : List Char :=
  "<!-- SKILLS-INDEX-START -->[Skills]|root:~/.openclaw/skills|Read SKILL.md before invoking.|".data
  ++ joinSep ['|'] entries
  ++ "<!-- SKILLS-INDEX-END -->".data

/-- runSkillIndex (lines 456-523) as an effect trace.  Note: unlike the
memory and bootstrap workflows, this function performs no size check
before writing. -/
def runSkillIndex (dryRun : Bool) (baseDirExists : Bool) (dirs : List SkillDir)
    (tools : Option (List Char)) : List Effect :=
  if !baseDirExists then []
  else if dirs.isEmpty then []
  else
    let entries := dirs.filterMap (fun d => d.skillMd.map (fun c => skillEntry d.name c))
    if entries.isEmpty then []
    else
      let indexLine := skillIndexLine entries
      match tools with
      | none => writeEff dryRun "TOOLS.md".data (indexLine ++ ['\n'])
      | some c =>
        let cleaned := stripExistingMarker c ("SKILLS-INDEX".data)
        writeEff dryRun "TOOLS.md".data (cleaned ++ "\n\n".data ++ indexLine ++ ['\n'])

/- ── Generic list lemmas ─────────────────────────────────────────── -/

theorem prefix_append_cases {p x b : List Char} (h : p <+: x ++ b) :
    p <+: x ∨ (x <+: p ∧ p.drop x.length <+: b) := by
  obtain ⟨t, ht⟩ := h
  by_cases hle : p.length ≤ x.length
  · left
    have h1 : (x ++ b).take p.length = p := by
      rw [← ht, List.take_left]
    rw [List.take_append_eq_append_take, Nat.sub_eq_zero_of_le hle, List.take_zero,
      List.append_nil] at h1
    rw [← h1]
    exact List.take_prefix _ _
  · right
    constructor
    · have h1 : (x ++ b).take x.length = x := List.take_left x b
      rw [← ht, List.take_append_eq_append_take, Nat.sub_eq_zero_of_le (by omega),
        List.take_zero, List.append_nil] at h1
      rw [← h1]
      exact List.take_prefix _ _
    · have h1 : (x ++ b).drop x.length = b := List.drop_left x b
      rw [← ht, List.drop_append_eq_append_drop, Nat.sub_eq_zero_of_le (by omega),
        List.drop_zero] at h1
      exact ⟨t, h1⟩

theorem containsSub_cons (p : List Char) (c : Char) (t : List Char) :
    containsSub p (c :: t) = (p.isPrefixOf (c :: t) || containsSub p t) := rfl

theorem containsSub_iff (p s : List Char) :
    containsSub p s = true ↔ ∃ j, p <+: s.drop j := by
  induction s with
  | nil =>
    simp [containsSub, List.isEmpty_iff]
  | cons c t ih =>
    rw [containsSub_cons]
    constructor
    · intro h
      rcases Bool.or_eq_true_iff.mp h with h | h
      · exact ⟨0, by simpa using List.isPrefixOf_iff_prefix.mp h⟩
      · obtain ⟨j, hj⟩ := ih.mp h
        exact ⟨j + 1, by simpa using hj⟩
    · rintro ⟨j, hj⟩
      cases j with
      | zero =>
        apply Bool.or_eq_true_iff.mpr
        left
        exact List.isPrefixOf_iff_prefix.mpr (by simpa using hj)
      | succ j =>
        apply Bool.or_eq_true_iff.mpr
        right
        exact ih.mpr ⟨j, by simpa using hj⟩

theorem isPrefixOf_nil_of_ne {p : List Char} (hp : p ≠ []) :
    p.isPrefixOf ([] : List Char) = false := by
  cases p with
  | nil => exact absurd rfl hp
  | cons c t => rfl

theorem no_prefix_drop_extend {p s : List Char} (hp : p ≠ [])
    (h : ∀ j, j < s.length → p.isPrefixOf (s.drop j) = false) :
    ∀ j, p.isPrefixOf (s.drop j) = false := by
  intro j
  by_cases hj : j < s.length
  · exact h j hj
  · rw [List.drop_eq_nil_of_le (by omega)]
    exact isPrefixOf_nil_of_ne hp

theorem head_eq_of_prefix {p : List Char} {c : Char} {s : List Char}
    (h : p <+: c :: s) (hp : p ≠ []) : ∃ q, p = c :: q := by
  cases p with
  | nil => exact absurd rfl hp
  | cons d q =>
    obtain ⟨t, ht⟩ := h
    injection ht with h1 h2
    exact ⟨q, by rw [h1]⟩

/- ── Marker structure lemmas ─────────────────────────────────────── -/

/-- The characters legal in a marker tag: upper-case letters and the
hyphen (all tags the script builds are of this shape). -/
def isTagChar (c : Char) : Bool := (65 ≤ c.toNat && c.toNat ≤ 90) || c.toNat = 45

theorem startMarker_cons (tag : List Char) :
    startMarker tag = '<' :: ("!-- ".data ++ (tag ++ "-START -->".data)) := by
  simp [startMarker]

theorem endMarker_cons (tag : List Char) :
    endMarker tag = '<' :: ("!-- ".data ++ (tag ++ "-END -->".data)) := by
  simp [endMarker]

theorem endMarker_ne_nil (tag : List Char) : endMarker tag ≠ [] := by
  rw [endMarker_cons]
  simp

theorem nl_not_mem_startMarker {tag : List Char}
    (h : ∀ c ∈ tag, isTagChar c = true) : '\n' ∉ startMarker tag := by
  intro hmem
  unfold startMarker at hmem
  rcases List.mem_append.mp hmem with hm | hm
  · rcases List.mem_append.mp hm with hm2 | hm2
    · revert hm2
      decide
    · have := h _ hm2
      simp [isTagChar] at this
  · revert hm
    decide

theorem space_mem_endMarker (tag : List Char) : ' ' ∈ endMarker tag := by
  unfold endMarker
  exact List.mem_append.mpr (Or.inl (List.mem_append.mpr (Or.inl (by decide))))

theorem lt_not_mem_endMarker_tail {tag : List Char}
    (h : ∀ c ∈ tag, isTagChar c = true) :
    '<' ∉ ("!-- ".data ++ (tag ++ "-END -->".data)) := by
  intro hmem
  rcases List.mem_append.mp hmem with hm | hm
  · revert hm
    decide
  · rcases List.mem_append.mp hm with hm2 | hm2
    · have := h _ hm2
      simp [isTagChar] at this
    · revert hm2
      decide

/- ── tryMatch and findEnd characterization ───────────────────────── -/

theorem matchCore_none_of_not_pre {sM eM s : List Char}
    (h : sM.isPrefixOf s = false) : matchCore sM eM s = none := by
  unfold matchCore
  simp [h]

theorem tryMatch_head_ne {sM eM : List Char} {c : Char} {t : List Char}
    (h : ¬ c = '\n') : tryMatch sM eM (c :: t) = matchCore sM eM (c :: t) := by
  unfold tryMatch
  split
  · rename_i t' heq
    injection heq with h1 h2
    exact absurd h1 h
  · rfl

theorem tryMatch_nl (sM eM : List Char) (t : List Char) :
    tryMatch sM eM ('\n' :: t) =
      (match matchCore sM eM t with
       | some r => some r
       | none => matchCore sM eM ('\n' :: t)) := rfl

theorem tryMatch_none_of_no_prefix {sM eM s : List Char}
    (h0 : sM.isPrefixOf s = false)
    (h1 : ∀ u, s = '\n' :: u → sM.isPrefixOf u = false) :
    tryMatch sM eM s = none := by
  unfold tryMatch
  split
  · rename_i u
    rw [matchCore_none_of_not_pre (h1 u rfl)]
    exact matchCore_none_of_not_pre h0
  · exact matchCore_none_of_not_pre h0

theorem findEnd_first {pat : List Char} (hp : pat ≠ []) (M B : List Char)
    (h : ∀ j, j < M.length → pat.isPrefixOf ((M ++ (pat ++ B)).drop j) = false) :
    findEnd pat (M ++ (pat ++ B)) = some B := by
  induction M with
  | nil =>
    obtain ⟨c, q, hc⟩ : ∃ c q, pat = c :: q := by
      cases pat with
      | nil => exact absurd rfl hp
      | cons c q => exact ⟨c, q, rfl⟩
    have hpre : pat.isPrefixOf (pat ++ B) = true :=
      List.isPrefixOf_iff_prefix.mpr (List.prefix_append _ _)
    have hdrop : (pat ++ B).drop pat.length = B := List.drop_left pat B
    subst hc
    rw [List.nil_append, List.cons_append]
    unfold findEnd
    rw [List.cons_append] at hpre hdrop
    simp only [hpre, if_true, hdrop]
  | cons m M' ih =>
    have h0 := h 0 (by simp)
    rw [List.drop_zero] at h0
    rw [List.cons_append]
    unfold findEnd
    rw [List.cons_append] at h0
    rw [h0]
    simp only [Bool.false_eq_true, if_false]
    exact ih (fun j hj => by
      have := h (j + 1) (by simp; omega)
      simpa using this)

/-- Drop one trailing LF, the mirror of dropOneNl. -/
def dropTrailNl (s : List Char) : List Char :=
  match s.reverse with
  | c :: r => if c = '\n' then r.reverse else s
  | [] => s

theorem dropTrailNl_nil : dropTrailNl [] = [] := rfl

theorem dropTrailNl_single_nl : dropTrailNl ['\n'] = [] := rfl

theorem dropTrailNl_single_ne (c : Char) (hc : ¬ c = '\n') : dropTrailNl [c] = [c] := by
  unfold dropTrailNl
  simp [hc]

theorem dropTrailNl_append_nl (x : List Char) : dropTrailNl (x ++ ['\n']) = x := by
  unfold dropTrailNl
  rw [List.reverse_append]
  simp

theorem dropTrailNl_cons (c : Char) (A : List Char) (hA : A ≠ []) :
    dropTrailNl (c :: A) = c :: dropTrailNl A := by
  unfold dropTrailNl
  obtain ⟨d, r, hdr⟩ : ∃ d r, A.reverse = d :: r := by
    cases hrev : A.reverse with
    | nil => exact absurd (by simpa using congrArg List.reverse hrev) hA
    | cons d r => exact ⟨d, r, rfl⟩
  rw [List.reverse_cons, hdr, List.cons_append]
  by_cases hd : d = '\n'
  · subst hd
    simp [List.reverse_append]
  · simp [hd]

theorem matchCore_exact (tag : List Char) (M B : List Char)
    (hM : ∀ j, j < M.length →
      (endMarker tag).isPrefixOf ((M ++ (endMarker tag ++ B)).drop j) = false) :
    matchCore (startMarker tag) (endMarker tag)
      (startMarker tag ++ (M ++ (endMarker tag ++ B))) = some (dropOneNl B) := by
  unfold matchCore
  have hpre : (startMarker tag).isPrefixOf
      (startMarker tag ++ (M ++ (endMarker tag ++ B))) = true :=
    List.isPrefixOf_iff_prefix.mpr (List.prefix_append _ _)
  rw [hpre]
  simp only [if_true]
  rw [List.drop_left]
  rw [findEnd_first (endMarker_ne_nil tag) M B hM]

theorem replGlobal_step_nil (tag : List Char) (M B : List Char)
    (hM : ∀ j, j < M.length →
      (endMarker tag).isPrefixOf ((M ++ (endMarker tag ++ B)).drop j) = false) :
    replGlobal tag (startMarker tag ++ (M ++ (endMarker tag ++ B))) =
      '\n' :: replGlobal tag (dropOneNl B) := by
  have hcons : startMarker tag ++ (M ++ (endMarker tag ++ B)) =
      '<' :: (("!-- ".data ++ (tag ++ "-START -->".data)) ++ (M ++ (endMarker tag ++ B))) := by
    rw [startMarker_cons, List.cons_append]
  have ht : tryMatch (startMarker tag) (endMarker tag)
      ('<' :: (("!-- ".data ++ (tag ++ "-START -->".data)) ++ (M ++ (endMarker tag ++ B)))) =
      some (dropOneNl B) := by
    rw [tryMatch_head_ne (by decide)]
    have := matchCore_exact tag M B hM
    rw [hcons] at this
    exact this
  rw [hcons, replGlobal_cons_eq, ht]

theorem replGlobal_step (tag : List Char) (A M B : List Char)
    (hA : ∀ j, j < A.length →
      (startMarker tag).isPrefixOf
        ((A ++ (startMarker tag ++ (M ++ (endMarker tag ++ B)))).drop j) = false)
    (hM : ∀ j, j < M.length →
      (endMarker tag).isPrefixOf ((M ++ (endMarker tag ++ B)).drop j) = false) :
    replGlobal tag (A ++ (startMarker tag ++ (M ++ (endMarker tag ++ B)))) =
      dropTrailNl A ++ '\n' :: replGlobal tag (dropOneNl B) := by
  induction A with
  | nil =>
    simpa using replGlobal_step_nil tag M B hM
  | cons c A' ih =>
    rw [List.cons_append]
    by_cases hA' : A' = []
    · subst hA'
      rw [List.nil_append]
      by_cases hc : c = '\n'
      · subst hc
        have ht : tryMatch (startMarker tag) (endMarker tag)
            ('\n' :: (startMarker tag ++ (M ++ (endMarker tag ++ B)))) =
            some (dropOneNl B) := by
          rw [tryMatch_nl, matchCore_exact tag M B hM]
        rw [replGlobal_cons_eq, ht, dropTrailNl_single_nl, List.nil_append]
      · have h0 := hA 0 (by simp)
        rw [List.drop_zero, List.singleton_append] at h0
        have ht : tryMatch (startMarker tag) (endMarker tag)
            (c :: (startMarker tag ++ (M ++ (endMarker tag ++ B)))) = none := by
          apply tryMatch_none_of_no_prefix h0
          intro u hu
          injection hu with hc' hu'
          exact absurd hc' hc
        rw [replGlobal_cons_eq, ht, replGlobal_step_nil tag M B hM,
          dropTrailNl_single_ne c hc, List.singleton_append]
    · have h0 := hA 0 (by simp)
      rw [List.drop_zero, List.cons_append] at h0
      have h1 : (startMarker tag).isPrefixOf
          (A' ++ (startMarker tag ++ (M ++ (endMarker tag ++ B)))) = false := by
        have := hA 1 (by simp; exact Nat.pos_of_ne_zero (fun hz => hA' (List.eq_nil_of_length_eq_zero hz)))
        rw [List.cons_append] at this
        simpa using this
      have ht : tryMatch (startMarker tag) (endMarker tag)
          (c :: (A' ++ (startMarker tag ++ (M ++ (endMarker tag ++ B))))) = none := by
        apply tryMatch_none_of_no_prefix h0
        intro u hu
        injection hu with hc' hu'
        rw [← hu']
        exact h1
      rw [replGlobal_cons_eq, ht]
      rw [ih (fun j hj => by
        have := hA (j + 1) (by simp; omega)
        rw [List.cons_append] at this
        simpa using this)]
      rw [dropTrailNl_cons c A' hA']
      rfl

theorem replGlobal_id_of_no_start (tag : List Char) (s : List Char)
    (h : ∀ j, j < s.length → (startMarker tag).isPrefixOf (s.drop j) = false) :
    replGlobal tag s = s := by
  induction s with
  | nil => exact replGlobal_nil tag
  | cons c t ih =>
    have hext := no_prefix_drop_extend (startMarker_ne_nil tag) h
    have h0 := hext 0
    rw [List.drop_zero] at h0
    have ht : tryMatch (startMarker tag) (endMarker tag) (c :: t) = none := by
      apply tryMatch_none_of_no_prefix h0
      intro u hu
      have := hext 1
      rw [hu] at this
      simpa using this
    rw [replGlobal_cons_eq, ht]
    rw [ih (fun j hj => by
      have := hext (j + 1)
      simpa using this)]

/- ── Normalization lemmas for collapse3 and trimEnd ──────────────── -/

def tripleNl : List Char := ['\n', '\n', '\n']

theorem containsSub_tail {p : List Char} {c : Char} {t : List Char}
    (h : containsSub p (c :: t) = false) : containsSub p t = false := by
  rw [containsSub_cons] at h
  exact (Bool.or_eq_false_iff.mp h).2

theorem dropWhile_head?_not (p : Char → Bool) (l : List Char) :
    ∀ d, (l.dropWhile p).head? = some d → p d = false := by
  induction l with
  | nil => intro d hd; simp at hd
  | cons c t ih =>
    intro d hd
    by_cases hc : p c
    · rw [List.dropWhile_cons_of_pos hc] at hd
      exact ih d hd
    · rw [List.dropWhile_cons_of_neg hc] at hd
      simp at hd
      rw [← hd]
      simpa using hc

theorem collapse3_cons_head (c : Char) (t : List Char) :
    ∃ u, collapse3 (c :: t) = c :: u := by
  rw [collapse3_cons_eq]
  by_cases hc : c = '\n'
  · subst hc
    simp only [if_true]
    by_cases hr : (t.takeWhile (fun d => d = '\n')).length = 0
    · exact ⟨collapse3 (t.dropWhile (fun d => d = '\n')), by simp [hr]⟩
    · exact ⟨'\n' :: collapse3 (t.dropWhile (fun d => d = '\n')), by simp [hr]⟩
  · exact ⟨collapse3 t, by simp [hc]⟩

theorem collapse3_head? (s : List Char) : (collapse3 s).head? = s.head? := by
  cases s with
  | nil => rw [collapse3_nil]
  | cons c t =>
    obtain ⟨u, hu⟩ := collapse3_cons_head c t
    rw [hu]
    rfl

theorem noTriple_cons_nl {X : List Char} (hX : containsSub tripleNl X = false)
    (hh : X.head? ≠ some '\n') : containsSub tripleNl ('\n' :: X) = false := by
  rw [containsSub_cons, Bool.or_eq_false_iff]
  refine ⟨?_, hX⟩
  cases X with
  | nil => rfl
  | cons x X' =>
    cases X' with
    | nil =>
      simp [tripleNl, List.isPrefixOf]
    | cons y X'' =>
      have hx : ¬ x = '\n' := fun hx => hh (by rw [hx]; rfl)
      simp [tripleNl, List.isPrefixOf]
      intro h1
      exact absurd h1.symm hx

theorem noTriple_cons_nlnl {X : List Char} (hX : containsSub tripleNl X = false)
    (hh : X.head? ≠ some '\n') :
    containsSub tripleNl ('\n' :: '\n' :: X) = false := by
  rw [containsSub_cons, Bool.or_eq_false_iff]
  refine ⟨?_, noTriple_cons_nl hX hh⟩
  cases X with
  | nil => simp [tripleNl, List.isPrefixOf]
  | cons x X' =>
    have hx : ¬ x = '\n' := fun hx => hh (by rw [hx]; rfl)
    simp [tripleNl, List.isPrefixOf]
    intro h1
    exact absurd h1.symm hx

theorem noTriple_cons_ne {c : Char} {X : List Char} (hc : ¬ c = '\n')
    (hX : containsSub tripleNl X = false) :
    containsSub tripleNl (c :: X) = false := by
  rw [containsSub_cons, Bool.or_eq_false_iff]
  refine ⟨?_, hX⟩
  simp [tripleNl, List.isPrefixOf]
  intro h1
  exact absurd h1.symm hc

theorem collapse3_noTriple (s : List Char) :
    containsSub tripleNl (collapse3 s) = false := by
  induction s using collapse3_induction with
  | h1 => rw [collapse3_nil]; rfl
  | h2 t ih =>
    rw [collapse3_cons_eq]
    simp only [if_pos rfl]
    have hhead : (collapse3 (t.dropWhile (fun d => d = '\n'))).head? ≠ some '\n' := by
      rw [collapse3_head?]
      intro hcon
      have := dropWhile_head?_not (fun d => d = '\n') t '\n' hcon
      simp at this
    by_cases hr : (t.takeWhile (fun d => d = '\n')).length = 0
    · simp only [hr, if_true]
      rw [List.singleton_append]
      exact noTriple_cons_nl ih hhead
    · simp only [hr, if_false]
      rw [List.cons_append, List.singleton_append]
      exact noTriple_cons_nlnl ih hhead
  | h3 c t hc ih =>
    rw [collapse3_cons_eq]
    simp only [hc, if_false]
    exact noTriple_cons_ne hc ih

theorem collapse3_fixed (s : List Char) (h : containsSub tripleNl s = false) :
    collapse3 s = s := by
  induction s using collapse3_induction with
  | h1 => rw [collapse3_nil]
  | h2 t ih =>
    rw [collapse3_cons_eq]
    simp only [if_pos rfl]
    cases t with
    | nil => simp [collapse3_nil]
    | cons d t' =>
      by_cases hd : d = '\n'
      · subst hd
        cases t' with
        | nil =>
          simp [List.takeWhile, List.dropWhile, collapse3_nil]
        | cons e t'' =>
          by_cases he : e = '\n'
          · subst he
            exfalso
            have : containsSub tripleNl ('\n' :: '\n' :: '\n' :: t'') = true := by
              rw [containsSub_cons]
              apply Bool.or_eq_true_iff.mpr
              left
              simp [tripleNl, List.isPrefixOf]
            rw [this] at h
            cases h
          · have htw : ('\n' :: e :: t'').takeWhile (fun d => d = '\n') = ['\n'] := by
              simp [List.takeWhile, he]
            have hdw : ('\n' :: e :: t'').dropWhile (fun d => d = '\n') = e :: t'' := by
              simp [List.dropWhile, he]
            rw [htw, hdw]
            simp only [List.length_cons, List.length_nil]
            have ht2 : containsSub tripleNl (e :: t'') = false :=
              containsSub_tail (containsSub_tail h)
            rw [hdw] at ih
            rw [ih ht2]
            rfl
      · have htw : (d :: t').takeWhile (fun e => e = '\n') = [] := by
          simp [List.takeWhile, hd]
        have hdw : (d :: t').dropWhile (fun e => e = '\n') = d :: t' := by
          simp [List.dropWhile, hd]
        rw [htw, hdw]
        simp only [List.length_nil, if_true]
        rw [hdw] at ih
        rw [ih (containsSub_tail h)]
        rfl
  | h3 c t hc ih =>
    rw [collapse3_cons_eq]
    simp only [hc, if_false]
    rw [ih (containsSub_tail h)]

theorem dropWhile_dropWhile (p : Char → Bool) (l : List Char) :
    (l.dropWhile p).dropWhile p = l.dropWhile p := by
  cases hd : l.dropWhile p with
  | nil => rfl
  | cons d t =>
    have : p d = false := by
      apply dropWhile_head?_not p l
      rw [hd]
      rfl
    rw [List.dropWhile_cons_of_neg (by simp [this])]

theorem trimEnd_idem (s : List Char) : trimEnd (trimEnd s) = trimEnd s := by
  unfold trimEnd
  rw [List.reverse_reverse, dropWhile_dropWhile]

theorem trimEnd_append_ws (x w : List Char) (hw : ∀ c ∈ w, isJsWs c = true) :
    trimEnd (x ++ w) = trimEnd x := by
  unfold trimEnd
  rw [List.reverse_append]
  congr 1
  rw [List.dropWhile_append]
  have hnil : w.reverse.dropWhile isJsWs = [] := by
    rw [List.dropWhile_eq_nil_iff]
    intro c hc
    exact hw c (List.mem_reverse.mp hc)
  simp [hnil]

theorem trimEnd_pre (s : List Char) : trimEnd s <+: s := by
  unfold trimEnd
  have h : (s.reverse.dropWhile isJsWs) <:+ s.reverse := List.dropWhile_suffix isJsWs
  have h2 := List.reverse_prefix.mpr h
  simpa using h2

theorem trimEnd_getLast_not_ws (s : List Char) :
    ∀ c, (trimEnd s).getLast? = some c → isJsWs c = false := by
  intro c hc
  unfold trimEnd at hc
  rw [List.getLast?_reverse] at hc
  exact dropWhile_head?_not isJsWs _ c hc

theorem containsSub_mono_pre {p x y : List Char} (hxy : x <+: y)
    (h : containsSub p x = true) : containsSub p y = true := by
  rw [containsSub_iff] at h ⊢
  obtain ⟨j, hj⟩ := h
  obtain ⟨t, ht⟩ := hxy
  by_cases hjx : j ≤ x.length
  · refine ⟨j, ?_⟩
    rw [← ht, List.drop_append_of_le_length hjx]
    exact hj.trans (List.prefix_append _ _)
  · rw [List.drop_eq_nil_of_le (by omega)] at hj
    have hp : p = [] := List.prefix_nil.mp hj
    exact ⟨0, hp ▸ List.nil_prefix⟩

theorem noTriple_of_prefix {x y : List Char} (hxy : x <+: y)
    (h : containsSub tripleNl y = false) : containsSub tripleNl x = false := by
  by_contra hcon
  rw [containsSub_mono_pre hxy (Bool.not_eq_false _ ▸ hcon)] at h
  cases h

/- ── Character facts about the serializer output ─────────────────── -/

theorem toNat_ofNat_valid (n : Nat) (h : n.isValidChar) : (Char.ofNat n).toNat = n := by
  unfold Char.ofNat
  simp [h]
  rfl

theorem mem_jsTrim {c : Char} {s : List Char} (h : c ∈ jsTrim s) : c ∈ s := by
  unfold jsTrim at h
  rw [List.mem_reverse] at h
  have h1 := (List.dropWhile_suffix isJsWs).subset h
  rw [List.mem_reverse] at h1
  exact (List.dropWhile_suffix isJsWs).subset h1

theorem mem_wsRunsToHyphen_not_ws {c : Char} {s : List Char}
    (h : c ∈ wsRunsToHyphen s) : isJsWs c = false := by
  induction s using wsRunsToHyphen_induction with
  | h1 =>
    rw [wsRunsToHyphen_nil] at h
    simp at h
  | h2 d t hd ih =>
    rw [wsRunsToHyphen_cons_eq] at h
    rw [if_pos hd] at h
    rcases List.mem_cons.mp h with hc | hc
    · subst hc
      decide
    · exact ih hc
  | h3 d t hd ih =>
    rw [wsRunsToHyphen_cons_eq] at h
    rw [if_neg hd] at h
    rcases List.mem_cons.mp h with hc | hc
    · subst hc
      simpa using hd
    · exact ih hc

theorem mem_slugifyValue_not_ws {c : Char} {t : List Char}
    (h : c ∈ slugifyValue t) : isJsWs c = false :=
  mem_wsRunsToHyphen_not_ws (mem_jsTrim h)

theorem mem_collapseHyphens {c : Char} {s : List Char}
    (h : c ∈ collapseHyphens s) : c ∈ s := by
  induction s using collapseHyphens_induction with
  | h1 =>
    rw [collapseHyphens_nil] at h
    simp at h
  | h2 t ih =>
    rw [collapseHyphens_cons_eq] at h
    simp only [if_pos rfl] at h
    rcases List.mem_cons.mp h with hc | hc
    · subst hc
      exact List.mem_cons_self _ _
    · exact List.mem_cons_of_mem _ ((List.dropWhile_suffix _).subset (ih hc))
  | h3 d t hd ih =>
    rw [collapseHyphens_cons_eq] at h
    rw [if_neg hd] at h
    rcases List.mem_cons.mp h with hc | hc
    · subst hc
      exact List.mem_cons_self _ _
    · exact List.mem_cons_of_mem _ (ih hc)

theorem mem_stripEdgeHyphens {c : Char} {s : List Char}
    (h : c ∈ stripEdgeHyphens s) : c ∈ s := by
  unfold stripEdgeHyphens at h
  have step1 : ∀ {x : List Char},
      c ∈ (match x.reverse with
           | '-' :: r => r.reverse
           | _ => x) → c ∈ x := by
    intro x hx
    split at hx
    · rename_i r hr
      rw [List.mem_reverse] at hx
      have : c ∈ x.reverse := by
        rw [hr]
        exact List.mem_cons_of_mem _ hx
      rwa [List.mem_reverse] at this
    · exact hx
  have h2 := step1 h
  split at h2
  · exact List.mem_cons_of_mem _ h2
  · exact h2

theorem mem_slugify_slugChar {c : Char} {t : List Char}
    (h : c ∈ slugify t) : isSlugChar c = true := by
  unfold slugify at h
  have h1 := mem_collapseHyphens (mem_stripEdgeHyphens h)
  exact (List.mem_filter.mp h1).2

theorem not_ws_of_slugChar {c : Char} (h : isSlugChar c = true) :
    isJsWs c = false := by
  simp [isSlugChar] at h
  simp [isJsWs]
  omega

theorem toUpper_slugChar_not_ws {c : Char} (h : isSlugChar c = true) :
    isJsWs (Char.toUpper c) = false := by
  have hdef : Char.toUpper c =
      if c.toNat ≥ 97 ∧ c.toNat ≤ 122 then Char.ofNat (c.toNat - 32) else c := rfl
  rw [hdef]
  simp [isSlugChar] at h
  by_cases hc : c.toNat ≥ 97 ∧ c.toNat ≤ 122
  · have hv : (c.toNat - 32).isValidChar := by
      left
      omega
    simp [hc, isJsWs, toNat_ofNat_valid _ hv]
    omega
  · simp [hc, isJsWs]
    omega

theorem mem_joinSep {c : Char} {sep : List Char} {es : List (List Char)}
    (h : c ∈ joinSep sep es) : c ∈ sep ∨ ∃ e ∈ es, c ∈ e := by
  induction es with
  | nil => simp [joinSep] at h
  | cons e es' ih =>
    cases es' with
    | nil =>
      right
      exact ⟨e, List.mem_cons_self _ _, by simpa [joinSep] using h⟩
    | cons e2 es'' =>
      rw [joinSep] at h
      case x_2 => simp
      rcases List.mem_append.mp h with hm | hm
      · rcases List.mem_append.mp hm with hm2 | hm2
        · exact Or.inr ⟨e, List.mem_cons_self _ _, hm2⟩
        · exact Or.inl hm2
      · rcases ih hm with hm2 | ⟨e', he', hce⟩
        · exact Or.inl hm2
        · exact Or.inr ⟨e', List.mem_cons_of_mem _ he', hce⟩

theorem mem_sectionEntries_not_ws {c : Char} {sec : Section} {e : List Char}
    (he : e ∈ sectionEntries sec) (hc : c ∈ e) : isJsWs c = false := by
  simp only [sectionEntries] at he
  split at he
  · rcases List.mem_singleton.mp he with rfl
    exact mem_slugifyValue_not_ws hc
  · rcases List.mem_append.mp he with hm | hm
    · obtain ⟨kv, _, hkv⟩ := List.mem_map.mp hm
      subst hkv
      unfold fieldEntry at hc
      rcases List.mem_append.mp hc with hc2 | hc2
      · exact not_ws_of_slugChar (mem_slugify_slugChar hc2)
      · rcases List.mem_cons.mp hc2 with rfl | hc3
        · decide
        · exact mem_slugifyValue_not_ws hc3
    · obtain ⟨b, _, hb⟩ := List.mem_map.mp hm
      subst hb
      exact mem_slugifyValue_not_ws hc

theorem mem_groupOf_not_ws {c : Char} {sec : Section}
    (h : c ∈ groupOf sec) : isJsWs c = false := by
  simp only [groupOf] at h
  split at h
  · simp at h
  · rcases List.mem_cons.mp h with rfl | h1
    · decide
    · rcases List.mem_append.mp h1 with h2 | h2
      · rcases List.mem_append.mp h2 with h3 | h3
        · rcases List.mem_append.mp h3 with h4 | h4
          · obtain ⟨d, hd, hdc⟩ := List.mem_map.mp h4
            rw [← hdc]
            exact toUpper_slugChar_not_ws (mem_slugify_slugChar hd)
          · simp at h4
            rcases h4 with rfl | rfl <;> decide
        · rcases mem_joinSep h3 with h4 | ⟨e, he, hce⟩
          · rcases List.mem_singleton.mp h4 with rfl
            decide
          · exact mem_sectionEntries_not_ws he hce
      · rcases List.mem_singleton.mp h2 with rfl
        decide

/-- The text strictly between the markers of a serialized block. -/
def serializeMid (title : List Char) (sections : List Section) : List Char :=
  ('[' :: title ++ [']']) ++ (sections.map groupOf).flatten

theorem serializeSections_shape (tag title : List Char) (sections : List Section) :
    serializeSections tag title sections =
      startMarker tag ++ (serializeMid title sections ++ endMarker tag) := by
  unfold serializeSections serializeMid
  simp [List.append_assoc]

theorem mem_serializeMid_not_ws {c : Char} {title : List Char} {sections : List Section}
    (htitle : ∀ d ∈ title, isJsWs d = false)
    (h : c ∈ serializeMid title sections) : isJsWs c = false := by
  unfold serializeMid at h
  rcases List.mem_append.mp h with h1 | h1
  · rcases List.mem_cons.mp h1 with rfl | h2
    · decide
    · rcases List.mem_append.mp h2 with h3 | h3
      · exact htitle c h3
      · rcases List.mem_singleton.mp h3 with rfl
        decide
  · obtain ⟨l, hl, hcl⟩ := List.mem_flatten.mp h1
    obtain ⟨sec, _, hsec⟩ := List.mem_map.mp hl
    subst hsec
    exact mem_groupOf_not_ws hcl

/- ── Occurrence lemmas for the idempotence argument ──────────────── -/

theorem no_end_prefix_of_no_space {tag : List Char} (htag : ∀ c ∈ tag, isTagChar c = true)
    {mid : List Char} (hmid : ∀ c ∈ mid, isJsWs c = false) (B : List Char) :
    ∀ j, j < mid.length →
      (endMarker tag).isPrefixOf ((mid ++ (endMarker tag ++ B)).drop j) = false := by
  intro j hj
  by_contra hcon
  have hpre : (endMarker tag) <+: ((mid ++ (endMarker tag ++ B)).drop j) :=
    List.isPrefixOf_iff_prefix.mp (Bool.not_eq_false _ ▸ hcon)
  rw [List.drop_append_of_le_length (by omega)] at hpre
  rcases prefix_append_cases hpre with hc1 | ⟨hc2, hc3⟩
  · have hsp : ' ' ∈ mid.drop j := hc1.subset (space_mem_endMarker tag)
    have := hmid ' ' (List.drop_subset _ _ hsp)
    simp [isJsWs] at this
  · have hxne : mid.drop j ≠ [] := by
      intro hxe
      have := congrArg List.length hxe
      simp at this
      omega
    have hxlen : (mid.drop j).length ≤ (endMarker tag).length := hc2.length_le
    by_cases heq : (mid.drop j).length = (endMarker tag).length
    · have hxeq : mid.drop j = endMarker tag := List.IsPrefix.eq_of_length hc2 heq
      have hsp : ' ' ∈ mid := List.drop_subset _ _ (hxeq ▸ space_mem_endMarker tag)
      have := hmid ' ' hsp
      simp [isJsWs] at this
    · have hne : (endMarker tag).drop (mid.drop j).length ≠ [] := by
        intro hnil
        have := congrArg List.length hnil
        simp at this
        have hld : (mid.drop j).length = mid.length - j := by simp
        omega
      have hc3' : (endMarker tag).drop (mid.drop j).length <+:
          '<' :: (("!-- ".data ++ (tag ++ "-END -->".data)) ++ B) := by
        rw [endMarker_cons, List.cons_append] at hc3
        exact hc3
      obtain ⟨q, hq⟩ := head_eq_of_prefix hc3' hne
      have hmem : '<' ∈ (endMarker tag).drop (mid.drop j).length := by
        rw [hq]
        exact List.mem_cons_self _ _
      have hxpos : 1 ≤ (mid.drop j).length := by
        have hld : (mid.drop j).length = mid.length - j := by simp
        omega
      have hsub : (endMarker tag).drop (mid.drop j).length ⊆ (endMarker tag).drop 1 := by
        have heqd : (endMarker tag).drop (mid.drop j).length =
            ((endMarker tag).drop 1).drop ((mid.drop j).length - 1) := by
          rw [List.drop_drop]
          congr 1
          omega
        rw [heqd]
        exact List.drop_subset _ _
      have hmem1 : '<' ∈ (endMarker tag).drop 1 := hsub hmem
      have hd1 : (endMarker tag).drop 1 = "!-- ".data ++ (tag ++ "-END -->".data) := by
        rw [endMarker_cons]
        rfl
      rw [hd1] at hmem1
      exact lt_not_mem_endMarker_tail htag hmem1

theorem no_start_prefix_in_clean_nn {tag : List Char} (htag : ∀ c ∈ tag, isTagChar c = true)
    (clean rest : List Char)
    (hclean : ∀ j, (startMarker tag).isPrefixOf (clean.drop j) = false) :
    ∀ j, j < (clean ++ ['\n', '\n']).length →
      (startMarker tag).isPrefixOf (((clean ++ ['\n', '\n']) ++ rest).drop j) = false := by
  intro j hj
  by_contra hcon
  have hpre : startMarker tag <+: (((clean ++ ['\n', '\n']) ++ rest).drop j) :=
    List.isPrefixOf_iff_prefix.mp (Bool.not_eq_false _ ▸ hcon)
  rw [List.append_assoc] at hpre
  have hj2 : j < clean.length + 2 := by
    simpa [List.length_append] using hj
  by_cases hjle : j ≤ clean.length
  · rw [List.drop_append_of_le_length hjle] at hpre
    rcases prefix_append_cases hpre with hc1 | ⟨hc2, hc3⟩
    · have : (startMarker tag).isPrefixOf (clean.drop j) = true :=
        List.isPrefixOf_iff_prefix.mpr hc1
      rw [hclean j] at this
      cases this
    · have hxlen : (clean.drop j).length ≤ (startMarker tag).length := hc2.length_le
      by_cases heq : (clean.drop j).length = (startMarker tag).length
      · have hxeq : clean.drop j = startMarker tag := List.IsPrefix.eq_of_length hc2 heq
        have : (startMarker tag).isPrefixOf (clean.drop j) = true :=
          List.isPrefixOf_iff_prefix.mpr (hxeq ▸ List.prefix_refl _)
        rw [hclean j] at this
        cases this
      · have hne : (startMarker tag).drop (clean.drop j).length ≠ [] := by
          intro hnil
          have := congrArg List.length hnil
          simp at this
          have hld : (clean.drop j).length = clean.length - j := by simp
          omega
        have hc3' : (startMarker tag).drop (clean.drop j).length <+:
            '\n' :: ('\n' :: rest) := hc3
        obtain ⟨q, hq⟩ := head_eq_of_prefix hc3' hne
        have hmem : '\n' ∈ startMarker tag := by
          apply List.drop_subset (clean.drop j).length
          rw [hq]
          exact List.mem_cons_self _ _
        exact nl_not_mem_startMarker htag hmem
  · have hjeq : j = clean.length + 1 := by omega
    subst hjeq
    have hdrop : (clean ++ (['\n', '\n'] ++ rest)).drop (clean.length + 1) =
        '\n' :: rest := by
      rw [List.drop_append_eq_append_drop]
      rw [List.drop_eq_nil_of_le (by omega), List.nil_append]
      rw [show clean.length + 1 - clean.length = 1 from by omega]
      rfl
    rw [hdrop] at hpre
    obtain ⟨q, hq⟩ := head_eq_of_prefix hpre (startMarker_ne_nil tag)
    have hmem : '\n' ∈ startMarker tag := by
      rw [hq]
      exact List.mem_cons_self _ _
    exact nl_not_mem_startMarker htag hmem

theorem noTriple_append_nn (a : List Char) (h1 : containsSub tripleNl a = false)
    (h2 : ∀ c, a.getLast? = some c → isJsWs c = false) :
    containsSub tripleNl (a ++ ['\n', '\n']) = false := by
  by_contra hcon
  obtain ⟨j, hj⟩ :=
    (containsSub_iff tripleNl (a ++ ['\n', '\n'])).mp (Bool.not_eq_false _ ▸ hcon)
  by_cases hja : j ≤ a.length
  · rw [List.drop_append_of_le_length hja] at hj
    rcases prefix_append_cases hj with hp | ⟨hp2, hp3⟩
    · have : containsSub tripleNl a = true := (containsSub_iff _ _).mpr ⟨j, hp⟩
      rw [h1] at this
      cases this
    · by_cases hx : a.drop j = []
      · rw [hx] at hp3
        simp at hp3
        have := hp3.length_le
        simp [tripleNl] at this
      · have hlast : a.getLast? = (a.drop j).getLast? := by
          obtain ⟨w, hw⟩ := List.drop_suffix j a
          conv_lhs => rw [← hw]
          exact List.getLast?_append_of_ne_nil _ hx
        have hsome : (a.drop j).getLast? = some '\n' := by
          have hmem : (a.drop j).getLast hx ∈ tripleNl :=
            hp2.subset (List.getLast_mem hx)
          simp only [tripleNl, List.mem_cons, List.not_mem_nil, or_false] at hmem
          rw [List.getLast?_eq_getLast _ hx]
          rcases hmem with h | h | h <;> rw [h]
        have := h2 '\n' (hlast ▸ hsome)
        simp [isJsWs] at this
  · rw [List.drop_append_eq_append_drop, List.drop_eq_nil_of_le (by omega),
      List.nil_append] at hj
    have hlen := hj.length_le
    have : (['\n', '\n'].drop (j - a.length)).length ≤ 2 := by
      simp
    simp [tripleNl] at hlen
    omega

/- ── The marker-strip of a freshly compressed bootstrap file ─────── -/

/-- Stripping the tag from content that ends in a freshly appended
compressed block recovers exactly the stripped original, provided the
stripped original retains no start marker for that tag. -/
theorem strip_bootstrapNewContent (tag title content : List Char)
    (htag : ∀ c ∈ tag, isTagChar c = true)
    (htitle : ∀ c ∈ title, isJsWs c = false)
    (hclean : ∀ j, (startMarker tag).isPrefixOf
      ((stripExistingMarker content tag).drop j) = false) :
    stripExistingMarker (bootstrapNewContent tag title content) tag =
      stripExistingMarker content tag := by
  have hshape : bootstrapNewContent tag title content =
      (stripExistingMarker content tag ++ ['\n', '\n']) ++
        (startMarker tag ++
          (serializeMid title (parseSections (stripExistingMarker content tag)) ++
            (endMarker tag ++ ['\n']))) := by
    simp only [bootstrapNewContent]
    rw [serializeSections_shape]
    simp [List.append_assoc]
  rw [hshape]
  show trimEnd (collapse3 (replGlobal tag
    ((stripExistingMarker content tag ++ ['\n', '\n']) ++
      (startMarker tag ++
        (serializeMid title (parseSections (stripExistingMarker content tag)) ++
          (endMarker tag ++ ['\n'])))))) = stripExistingMarker content tag
  rw [replGlobal_step tag (stripExistingMarker content tag ++ ['\n', '\n'])
    (serializeMid title (parseSections (stripExistingMarker content tag))) ['\n']
    (no_start_prefix_in_clean_nn htag _ _ hclean)
    (no_end_prefix_of_no_space htag
      (fun c hc => mem_serializeMid_not_ws htitle hc) ['\n'])]
  rw [show dropOneNl ['\n'] = ([] : List Char) from rfl, replGlobal_nil]
  rw [show (stripExistingMarker content tag ++ ['\n', '\n']) =
    (stripExistingMarker content tag ++ ['\n']) ++ ['\n'] from by simp]
  rw [dropTrailNl_append_nl]
  have hstep : (stripExistingMarker content tag ++ ['\n']) ++ '\n' :: ([] : List Char) =
      stripExistingMarker content tag ++ ['\n', '\n'] := by
    simp
  rw [hstep]
  have hclean_triple : containsSub tripleNl (stripExistingMarker content tag) = false := by
    unfold stripExistingMarker
    exact noTriple_of_prefix (trimEnd_pre _) (collapse3_noTriple _)
  have hclean_last : ∀ c, (stripExistingMarker content tag).getLast? = some c →
      isJsWs c = false := by
    unfold stripExistingMarker
    exact trimEnd_getLast_not_ws _
  rw [collapse3_fixed _ (noTriple_append_nn _ hclean_triple hclean_last)]
  rw [trimEnd_append_ws _ ['\n', '\n'] (by
    intro c hc
    rcases List.mem_cons.mp hc with rfl | hc2
    · decide
    · rcases List.mem_singleton.mp hc2 with rfl
      decide)]
  show trimEnd (trimEnd (collapse3 (replGlobal tag content))) =
    trimEnd (collapse3 (replGlobal tag content))
  exact trimEnd_idem _

/- ═══════════════════════════ Claims ═══════════════════════════════ -/

/-- C7: the document with heading Tone (bullets warm, professional) and
heading Style (bullet concise) serializes to a block that contains the
group segments TONE:(warm,professional) and STYLE:(concise) in brace
syntax, with no embedded line break. -/
theorem c7_scenario_tone_style :
    containsSub "TONE:\x7bwarm,professional\x7d".data
      (serializeSections "SOUL".data "SOUL".data
        (parseSections "## Tone\n- warm\n- professional\n\n## Style\n- concise\n".data)) = true ∧
    containsSub "STYLE:\x7bconcise\x7d".data
      (serializeSections "SOUL".data "SOUL".data
        (parseSections "## Tone\n- warm\n- professional\n\n## Style\n- concise\n".data)) = true ∧
    (serializeSections "SOUL".data "SOUL".data
      (parseSections "## Tone\n- warm\n- professional\n\n## Style\n- concise\n".data)).contains
        '\n' = false := by
  decide

/-- C4 counterexample: the header "Style decision" contains the
substring decision but classifies as preferences, because the
preferences pattern (which matches the substring style) is tested
first. -/
theorem c4_counterexample :
    classifySection "Style decision".data = Category.preferences ∧
    Category.preferences ≠ Category.decisions ∧
    containsSub "decision".data ("Style decision".data.map Char.toLower) = true := by
  decide

/-- C4 (amended): a header containing the substring decision (after
lower-casing) classifies as decisions provided it does not match the
preferences pattern, which is tested first; a header matching none of
the seven patterns classifies as facts. -/
theorem c4_classify_amended (header : List Char) :
    (containsSub "decision".data (header.map Char.toLower) = true →
      prefPat (header.map Char.toLower) = false →
      classifySection header = Category.decisions) ∧
    (prefPat (header.map Char.toLower) = false →
      decPat (header.map Char.toLower) = false →
      factPat (header.map Char.toLower) = false →
      entPat (header.map Char.toLower) = false →
      lesPat (header.map Char.toLower) = false →
      todoPat (header.map Char.toLower) = false →
      opPat (header.map Char.toLower) = false →
      classifySection header = Category.facts) := by
  constructor
  · intro h1 h2
    have hd : decPat (header.map Char.toLower) = true := by
      unfold decPat matchAnySub
      simp [h1]
    unfold classifySection
    simp [h2, hd]
  · intro h1 h2 h3 h4 h5 h6 h7
    unfold classifySection
    simp [h1, h2, h3, h4, h5, h6, h7]

/-- C4 witness: the amended theorem applied at two concrete headers. -/
theorem c4_classify_amended_witness :
    classifySection "Key decision".data = Category.decisions ∧
    classifySection "zzz".data = Category.facts :=
  ⟨(c4_classify_amended "Key decision".data).1 (by decide) (by decide),
    (c4_classify_amended "zzz".data).2 (by decide) (by decide) (by decide) (by decide)
      (by decide) (by decide) (by decide)⟩

/-- The parse loop only ever creates section headers by trimming a
matched heading group, so non-empty trimmed groups give non-empty
headers. -/
theorem parseLoop_header_ne_nil (ls : List (List Char)) (cur : Option Section)
    (acc : List Section)
    (hls : ∀ l ∈ ls,
      (match headerMatch l with
       | some g => !(jsTrim g).isEmpty
       | none => true) = true)
    (hcur : ∀ s, cur = some s → s.header ≠ [])
    (hacc : ∀ s ∈ acc, s.header ≠ []) :
    ∀ sec ∈ parseLoop ls cur acc, sec.header ≠ [] := by
  induction ls generalizing cur acc with
  | nil =>
    intro sec hsec
    unfold parseLoop at hsec
    cases hc : cur with
    | some s =>
      rw [hc] at hsec
      rcases List.mem_append.mp hsec with h | h
      · exact hacc sec h
      · rw [List.mem_singleton.mp h]
        exact hcur s hc
    | none =>
      rw [hc] at hsec
      exact hacc sec hsec
  | cons l ls ih =>
    intro sec hsec
    unfold parseLoop at hsec
    have hl := hls l (List.mem_cons_self _ _)
    have hls' : ∀ l' ∈ ls,
        (match headerMatch l' with
         | some g => !(jsTrim g).isEmpty
         | none => true) = true :=
      fun l' hl' => hls l' (List.mem_cons_of_mem _ hl')
    have haccx : ∀ s ∈ (match cur with
        | some s => acc ++ [s]
        | none => acc), s.header ≠ [] := by
      cases hc : cur with
      | some s =>
        intro s' hs'
        rcases List.mem_append.mp hs' with h | h
        · exact hacc s' h
        · rw [List.mem_singleton.mp h]
          exact hcur s hc
      | none => exact hacc
    cases hm : headerMatch l with
    | some g =>
      rw [hm] at hsec hl
      refine ih _ _ hls' ?_ haccx sec hsec
      intro s hs
      injection hs with hs'
      rw [← hs']
      have hg : jsTrim g ≠ [] := by
        have hl2 : !(jsTrim g).isEmpty = true := by simpa using hl
        intro hge
        rw [hge] at hl2
        simp at hl2
      exact hg
    | none =>
      rw [hm] at hsec
      cases hc : cur with
      | none =>
        rw [hc] at hsec
        refine ih _ _ hls' ?_ hacc sec hsec
        intro s hs
        cases hs
      | some s =>
        rw [hc] at hsec
        have hkeep : ∀ fs bs ps, (∀ s', some (⟨s.header, fs, bs, ps⟩ : Section) = some s' →
            s'.header ≠ []) := by
          intro fs bs ps s' hs'
          injection hs' with hs''
          rw [← hs'']
          exact hcur s hc
        cases hf : fieldMatch l with
        | some kv =>
          rw [hf] at hsec
          exact ih _ _ hls' (hkeep _ _ _) hacc sec hsec
        | none =>
          rw [hf] at hsec
          cases hb : bulletMatch l with
          | some b =>
            rw [hb] at hsec
            exact ih _ _ hls' (hkeep _ _ _) hacc sec hsec
          | none =>
            rw [hb] at hsec
            by_cases ht : (jsTrim l).isEmpty = true
            · simp only [ht, if_true] at hsec
              refine ih _ _ hls' ?_ hacc sec hsec
              intro s' hs'
              injection hs' with hs''
              rw [← hs'']
              exact hcur s hc
            · have htb : (jsTrim l).isEmpty = false := by
                simpa using ht
              simp only [htb, Bool.false_eq_true, if_false] at hsec
              exact ih _ _ hls' (hkeep _ _ _) hacc sec hsec

/-- C5 counterexample: the heading line of two hash marks and two
spaces produces a section whose header is the empty string (the regex
backtracks so the dot-plus group captures a space, which trims away). -/
theorem c5_counterexample :
    ((parseSections "##  ".data).map Section.header = [[]]) ∧
    ((parseSections "##  ".data).all (fun sec => !sec.header.isEmpty) = false) := by
  decide

/-- C5 (amended): every produced Section header is non-empty provided
every heading line of the (front-matter-stripped) input has heading
text that is non-empty after trimming; a heading line whose text is all
whitespace produces an empty header. -/
theorem c5_header_nonempty_amended (content : List Char)
    (h : ∀ l ∈ splitNl (stripFrontmatter content),
      (match headerMatch l with
       | some g => !(jsTrim g).isEmpty
       | none => true) = true) :
    ∀ sec ∈ parseSections content, sec.header ≠ [] := by
  unfold parseSections
  refine parseLoop_header_ne_nil _ none [] h ?_ ?_
  · intro s hs
    cases hs
  · intro s hs
    exact absurd hs (List.not_mem_nil s)

/-- C5 witness: the amended theorem applied at a concrete document. -/
theorem c5_header_nonempty_witness :
    (parseSections "## Tone\n- warm\n".data).all
      (fun sec => !sec.header.isEmpty) = true := by
  have h := c5_header_nonempty_amended "## Tone\n- warm\n".data (by decide)
  rw [List.all_eq_true]
  intro sec hsec
  have := h sec hsec
  simpa [List.isEmpty_iff] using this

/- ── C2: the merge step ──────────────────────────────────────────── -/

theorem foldl_pushSection (secs : List Section) (m : Category → List Section)
    (cat : Category) :
    (secs.foldl pushSection m) cat =
      m cat ++ secs.filter (fun s => decide (classifySection s.header = cat)) := by
  induction secs generalizing m with
  | nil => simp
  | cons sec secs ih =>
    rw [List.foldl_cons, ih]
    simp only [pushSection]
    by_cases hc : classifySection sec.header = cat
    · rw [if_pos hc.symm, List.filter_cons]
      simp [hc]
    · rw [if_neg (fun h => hc h.symm), List.filter_cons]
      simp [hc]

theorem buildCategorized_eq (contents : List (List Char)) (cat : Category) :
    buildCategorized contents cat =
      ((contents.map parseSections).flatten).filter
        (fun s => decide (classifySection s.header = cat)) := by
  suffices h : ∀ m : Category → List Section,
      (contents.foldl (fun m content => (parseSections content).foldl pushSection m) m)
          cat =
        m cat ++ ((contents.map parseSections).flatten).filter
          (fun s => decide (classifySection s.header = cat)) by
    have := h (fun _ => [])
    simpa [buildCategorized] using this
  induction contents with
  | nil =>
    intro m
    simp
  | cons c cs ih =>
    intro m
    rw [List.foldl_cons, ih, foldl_pushSection]
    simp [List.filter_append, List.append_assoc]

/-- C2: merging a category appends the newly classified sections after
the sections recovered from the existing detail file, in order and
without deduplication, so the merged count is the sum of the two
counts. -/
theorem c2_merge_append (input : MemInput) (cat : Category) :
    mergedCategorized input cat =
      (match input.compressed cat with
       | some c => parseSections c
       | none => []) ++
        ((((dailyFilesOf input).map MemEntry.content).map parseSections).flatten).filter
          (fun s => decide (classifySection s.header = cat)) ∧
    (mergedCategorized input cat).length =
      (match input.compressed cat with
       | some c => parseSections c
       | none => []).length +
        (((((dailyFilesOf input).map MemEntry.content).map parseSections).flatten).filter
          (fun s => decide (classifySection s.header = cat))).length := by
  have hmain : mergedCategorized input cat =
      (match input.compressed cat with
       | some c => parseSections c
       | none => []) ++
        ((((dailyFilesOf input).map MemEntry.content).map parseSections).flatten).filter
          (fun s => decide (classifySection s.header = cat)) := by
    unfold mergedCategorized
    cases input.compressed cat with
    | some c => simp [buildCategorized_eq]
    | none => simp [buildCategorized_eq]
  exact ⟨hmain, by rw [hmain, List.length_append]⟩

/- ── C9: the eight-entry cap of the memory index ─────────────────── -/

/-- C9: a category segment of the memory index depends only on the
first eight merged sections (every later section is represented only by
the detail-file reference), and the listed slug count is the minimum of
eight and the section count. -/
theorem c9_catSummary_caps_at_eight (cat : Category) (sections : List Section) :
    catSummary cat sections = catSummary cat (sections.take 8) ∧
    ((sections.map (fun s => slugify s.header)).take 8).length =
      min 8 sections.length := by
  constructor
  · unfold catSummary
    have htake : ((sections.take 8).map (fun s => slugify s.header)).take 8 =
        (sections.map (fun s => slugify s.header)).take 8 := by
      rw [List.map_take, List.take_take]
      simp
    rw [htake]
  · rw [List.length_take, List.length_map]

/- ── C1: idempotence of bootstrap compression ────────────────────── -/

/-- C1 counterexample: a bootstrap file consisting of a dangling start
marker (no matching end marker) is not compressed idempotently — the
second pass's stripping regex consumes from the dangling marker through
the freshly appended block, so the outputs of one and two passes
differ. -/
theorem c1_counterexample :
    bootstrapNewContent "SOUL".data "SOUL".data
        (bootstrapNewContent "SOUL".data "SOUL".data "<!-- SOUL-START -->".data) ≠
      bootstrapNewContent "SOUL".data "SOUL".data "<!-- SOUL-START -->".data := by
  decide

/-- C1 (amended): bootstrap compression is idempotent for every file
content whose marker-stripped text retains no occurrence of the tag's
start marker (in particular every content whose markers are properly
paired), for any tag of upper-case letters and hyphens and any
whitespace-free title. -/
theorem c1_bootstrap_idempotent (tag title content : List Char)
    (htag : ∀ c ∈ tag, isTagChar c = true)
    (htitle : ∀ c ∈ title, isJsWs c = false)
    (hclean : ∀ j, j < (stripExistingMarker content tag).length →
      (startMarker tag).isPrefixOf ((stripExistingMarker content tag).drop j) = false) :
    bootstrapNewContent tag title (bootstrapNewContent tag title content) =
      bootstrapNewContent tag title content := by
  have hclean' := no_prefix_drop_extend (startMarker_ne_nil tag) hclean
  have hs := strip_bootstrapNewContent tag title content htag htitle hclean'
  show stripExistingMarker (bootstrapNewContent tag title content) tag ++ "\n\n".data ++
      serializeSections tag title
        (parseSections (stripExistingMarker (bootstrapNewContent tag title content) tag)) ++
      ['\n'] =
    bootstrapNewContent tag title content
  rw [hs]
  rfl

/-- C1 witness: the amended idempotence theorem applied at a concrete
bootstrap document. -/
theorem c1_bootstrap_idempotent_witness :
    bootstrapNewContent "SOUL".data "SOUL".data
        (bootstrapNewContent "SOUL".data "SOUL".data "## Tone\n- warm\n".data) =
      bootstrapNewContent "SOUL".data "SOUL".data "## Tone\n- warm\n".data :=
  c1_bootstrap_idempotent "SOUL".data "SOUL".data "## Tone\n- warm\n".data
    (by decide) (by decide) (by decide)

/- ── C3 and C10: marker stripping ────────────────────────────────── -/

theorem dropOneNl_cons_ne {c : Char} (hc : ¬ c = '\n') (t : List Char) :
    dropOneNl (c :: t) = c :: t := by
  unfold dropOneNl
  split
  · rename_i t' heq
    injection heq with h1 _
    exact absurd h1 hc
  · rfl

theorem no_start_dropOneNl_append {tag A T : List Char}
    (h : ∀ j, j < A.length →
      (startMarker tag).isPrefixOf ((A ++ T).drop j) = false) :
    ∀ j, j < (dropOneNl A).length →
      (startMarker tag).isPrefixOf ((dropOneNl A ++ T).drop j) = false := by
  intro j hj
  cases A with
  | nil =>
    have : dropOneNl ([] : List Char) = [] := rfl
    rw [this] at hj
    simp at hj
  | cons a A2 =>
    by_cases ha : a = '\n'
    · subst ha
      have hd : dropOneNl ('\n' :: A2) = A2 := rfl
      rw [hd] at hj ⊢
      have := h (j + 1) (by simp; omega)
      simpa [List.drop_succ_cons] using this
    · rw [dropOneNl_cons_ne ha] at hj ⊢
      exact h j hj

/-- C3 counterexample: a text with exactly one marker pair but a
pre-existing four-LF run elsewhere; stripping also collapses that
unrelated run, so characters outside the span and its adjacent blank
line change. -/
theorem c3_counterexample :
    stripExistingMarker "a\n\n\n\nb\n<!-- T-START --><!-- T-END -->".data "T".data =
      "a\n\nb".data ∧
    "a\n\nb".data ≠ "a\n\n\n\nb".data := by
  decide

/-- C3 (amended): for a text with exactly one start/end pair for the
tag, stripping removes the span together with its adjacent LFs,
replaces it by a single LF, and additionally collapses every run of
three or more LFs anywhere to exactly two and trims trailing
whitespace. -/
theorem c3_strip_single_pair (tag A M B : List Char)
    (hA : ∀ j, j < A.length →
      (startMarker tag).isPrefixOf
        ((A ++ (startMarker tag ++ (M ++ (endMarker tag ++ B)))).drop j) = false)
    (hM : ∀ j, j < M.length →
      (endMarker tag).isPrefixOf ((M ++ (endMarker tag ++ B)).drop j) = false)
    (hB : ∀ j, j < B.length →
      (startMarker tag).isPrefixOf (B.drop j) = false) :
    stripExistingMarker (A ++ (startMarker tag ++ (M ++ (endMarker tag ++ B)))) tag =
      trimEnd (collapse3 (dropTrailNl A ++ '\n' :: dropOneNl B)) := by
  show trimEnd (collapse3 (replGlobal tag
    (A ++ (startMarker tag ++ (M ++ (endMarker tag ++ B)))))) = _
  rw [replGlobal_step tag A M B hA hM]
  rw [replGlobal_id_of_no_start tag (dropOneNl B) (by
    have := @no_start_dropOneNl_append tag B [] (by simpa using hB)
    simpa using this)]

/-- C3 witness: the amended theorem applied at a concrete single-pair
text. -/
theorem c3_strip_single_pair_witness :
    stripExistingMarker
        ("x\n".data ++ (startMarker "T".data ++
          ("mid".data ++ (endMarker "T".data ++ "\ny".data)))) "T".data =
      trimEnd (collapse3 (dropTrailNl "x\n".data ++ '\n' :: dropOneNl "\ny".data)) :=
  c3_strip_single_pair "T".data "x\n".data "mid".data "\ny".data
    (by decide) (by decide) (by decide)

/-- The text made of an arbitrary number of marker pairs with arbitrary
inter-marker segments. -/
def tailText (tag : List Char) : List (List Char × List Char) → List Char
  | [] => []
  | (M, A) :: ps =>
    startMarker tag ++ (M ++ (endMarker tag ++ (A ++ tailText tag ps)))

/-- The residue of the inter-marker segments after the global
replacement. -/
def strippedTail (tag : List Char) : List (List Char × List Char) → List Char
  | [] => []
  | (_, A) :: ps =>
    match ps with
    | [] => dropOneNl A
    | _ :: _ => dropTrailNl (dropOneNl A) ++ '\n' :: strippedTail tag ps

/-- Well-formedness of the pieces: no stray end marker inside a span
and no stray start marker inside a following segment. -/
def piecesOk (tag : List Char) : List (List Char × List Char) → Prop
  | [] => True
  | (M, A) :: ps =>
    (∀ j, j < M.length →
      (endMarker tag).isPrefixOf
        ((M ++ (endMarker tag ++ (A ++ tailText tag ps))).drop j) = false) ∧
    (∀ j, j < A.length →
      (startMarker tag).isPrefixOf ((A ++ tailText tag ps).drop j) = false) ∧
    piecesOk tag ps

theorem dropOneNl_append_tailText (tag : List Char) (A : List Char)
    (q : List Char × List Char) (qs : List (List Char × List Char)) :
    dropOneNl (A ++ tailText tag (q :: qs)) =
      dropOneNl A ++ tailText tag (q :: qs) := by
  obtain ⟨M, A1⟩ := q
  cases A with
  | nil =>
    rw [List.nil_append]
    have hT : tailText tag ((M, A1) :: qs) =
        '<' :: (("!-- ".data ++ (tag ++ "-START -->".data)) ++
          (M ++ (endMarker tag ++ (A1 ++ tailText tag qs)))) := by
      rw [show tailText tag ((M, A1) :: qs) =
        startMarker tag ++ (M ++ (endMarker tag ++ (A1 ++ tailText tag qs))) from rfl]
      rw [startMarker_cons, List.cons_append]
    rw [hT, dropOneNl_cons_ne (by decide), ← hT]
    rfl
  | cons a A2 =>
    by_cases ha : a = '\n'
    · subst ha
      rfl
    · rw [List.cons_append, dropOneNl_cons_ne ha, dropOneNl_cons_ne ha, List.cons_append]

theorem replGlobal_splice (tag : List Char) (pieces : List (List Char × List Char))
    (hne : pieces ≠ []) :
    ∀ A0, (∀ j, j < A0.length →
      (startMarker tag).isPrefixOf ((A0 ++ tailText tag pieces).drop j) = false) →
    piecesOk tag pieces →
    replGlobal tag (A0 ++ tailText tag pieces) =
      dropTrailNl A0 ++ '\n' :: strippedTail tag pieces := by
  induction pieces with
  | nil => exact absurd rfl hne
  | cons p ps ih =>
    intro A0 hA0 hok
    obtain ⟨M, A⟩ := p
    obtain ⟨hM, hA, hok'⟩ := hok
    rw [show tailText tag ((M, A) :: ps) =
      startMarker tag ++ (M ++ (endMarker tag ++ (A ++ tailText tag ps))) from rfl] at hA0 ⊢
    rw [replGlobal_step tag A0 M (A ++ tailText tag ps) hA0 hM]
    cases hps : ps with
    | nil =>
      subst hps
      rw [show tailText tag [] = [] from rfl] at hA ⊢
      rw [List.append_nil]
      rw [replGlobal_id_of_no_start tag (dropOneNl A) (by
        have := @no_start_dropOneNl_append tag A [] (by simpa using hA)
        simpa using this)]
      rfl
    | cons q qs =>
      subst hps
      rw [dropOneNl_append_tailText tag A q qs]
      rw [ih (by simp) (dropOneNl A) (no_start_dropOneNl_append hA) hok']
      rfl

/-- C10: stripping is global — for a text containing two or more
disjoint, well-separated start/end pairs for the tag, every span is
removed (each replaced by a single LF), then LF runs are collapsed and
trailing whitespace trimmed. -/
theorem c10_strip_all_pairs (tag A0 : List Char)
    (pieces : List (List Char × List Char)) (hn : 2 ≤ pieces.length)
    (hA0 : ∀ j, j < A0.length →
      (startMarker tag).isPrefixOf ((A0 ++ tailText tag pieces).drop j) = false)
    (hok : piecesOk tag pieces) :
    stripExistingMarker (A0 ++ tailText tag pieces) tag =
      trimEnd (collapse3 (dropTrailNl A0 ++ '\n' :: strippedTail tag pieces)) := by
  show trimEnd (collapse3 (replGlobal tag (A0 ++ tailText tag pieces))) = _
  rw [replGlobal_splice tag pieces (by
    intro h
    rw [h] at hn
    simp at hn) A0 hA0 hok]

/-- C10 witness: the theorem applied at a concrete two-pair text. -/
theorem c10_strip_all_pairs_witness :
    stripExistingMarker
        ("head\n".data ++ tailText "T".data
          [("m1".data, "\nmid\n".data), ("m2".data, "\ntail".data)]) "T".data =
      trimEnd (collapse3 (dropTrailNl "head\n".data ++ '\n' ::
        strippedTail "T".data
          [("m1".data, "\nmid\n".data), ("m2".data, "\ntail".data)])) :=
  c10_strip_all_pairs "T".data "head\n".data
    [("m1".data, "\nmid\n".data), ("m2".data, "\ntail".data)]
    (by decide) (by decide) ⟨by decide, by decide, by decide, by decide, trivial⟩

/- ── C6 and C8: warnings and dry-run ─────────────────────────────── -/

def isWarn : Effect → Bool
  | .warn _ _ => true
  | _ => false

def isMutating : Effect → Bool
  | .warn _ _ => false
  | _ => true

/-- The title derived from a bootstrap file name (line 410). -/
def bootstrapTitle (filename : List Char) : List Char :=
  replaceFirst ".md".data [] filename

/-- The tag derived from a bootstrap file name (line 411). -/
def bootstrapTag (filename : List Char) : List Char :=
  (bootstrapTitle filename).map Char.toUpper

/-- The compressed block of one bootstrap file (lines 419-424). -/
def bootstrapCompressed (filename content : List Char) : List Char :=
  serializeSections (bootstrapTag filename) (bootstrapTitle filename)
    (parseSections (stripExistingMarker content (bootstrapTag filename)))

theorem filter_isWarn_writeEff (d : Bool) (p c : List Char) :
    (writeEff d p c).filter isWarn = [] := by
  cases d <;> rfl

theorem filter_isWarn_copyEff (d : Bool) (s t : List Char) :
    (copyEff d s t).filter isWarn = [] := by
  cases d <;> rfl

theorem filter_flatten_eq {α : Type} (p : α → Bool) (l : List (List α)) :
    l.flatten.filter p = (l.map (List.filter p)).flatten := by
  induction l with
  | nil => rfl
  | cons x t ih => simp [List.filter_append, ih]

theorem flatten_map_nil {α β : Type} (l : List α) :
    (l.map (fun _ => ([] : List β))).flatten = [] := by
  induction l with
  | nil => rfl
  | cons x t ih => simp [ih]

theorem runMemoryConsolidation_filter_isWarn (d : Bool) (input : MemInput) :
    (runMemoryConsolidation d input).filter isWarn =
      if input.memoryDirExists = true ∧ (dailyFilesOf input).isEmpty = false ∧
          4096 < (indexLineOf (mergedCategorized input)).length then
        [Effect.warn "MEMORY.md".data (indexLineOf (mergedCategorized input)).length]
      else [] := by
  unfold runMemoryConsolidation
  cases hdir : input.memoryDirExists <;>
    cases hde : (dailyFilesOf input).isEmpty <;>
      cases hm : input.memoryMd <;>
        simp [hdir, hde, List.filter_append, filter_isWarn_copyEff,
          filter_isWarn_writeEff, filter_flatten_eq, flatten_map_nil,
          apply_ite (List.filter isWarn), isWarn, List.map_map, Function.comp_def]

theorem bootstrapFileTrace_filter_isWarn (d : Bool) (ts filename : List Char)
    (content : Option (List Char)) :
    (bootstrapFileTrace d ts filename content).filter isWarn =
      match content with
      | none => []
      | some c =>
        if 2048 < (bootstrapCompressed filename c).length then
          [Effect.warn filename (bootstrapCompressed filename c).length]
        else [] := by
  cases content with
  | none => rfl
  | some c =>
    simp only [bootstrapFileTrace]
    simp [List.filter_append, filter_isWarn_copyEff, filter_isWarn_writeEff,
      apply_ite (List.filter isWarn), isWarn, bootstrapCompressed, bootstrapTag,
      bootstrapTitle]

theorem runBootstrapCompression_filter_isWarn (d : Bool) (ts : List Char)
    (files : List Char → Option (List Char)) :
    (runBootstrapCompression d ts files).filter isWarn =
      (runBootstrapCompression false ts files).filter isWarn := by
  unfold runBootstrapCompression
  rw [filter_flatten_eq, filter_flatten_eq, List.map_map, List.map_map]
  refine congrArg List.flatten (List.map_congr_left ?_)
  intro name _
  simp only [Function.comp_apply]
  rw [bootstrapFileTrace_filter_isWarn, bootstrapFileTrace_filter_isWarn]

theorem runSkillIndex_filter_isWarn (d b : Bool) (dirs : List SkillDir)
    (tools : Option (List Char)) :
    (runSkillIndex d b dirs tools).filter isWarn = [] := by
  cases b with
  | false => rfl
  | true =>
    cases tools <;>
      simp [runSkillIndex, filter_isWarn_writeEff, apply_ite (List.filter isWarn)]

theorem runMemoryConsolidation_dry_isMutating (input : MemInput) :
    (runMemoryConsolidation true input).filter isMutating = [] := by
  unfold runMemoryConsolidation
  cases hdir : input.memoryDirExists <;>
    cases hde : (dailyFilesOf input).isEmpty <;>
      cases hm : input.memoryMd <;>
        simp [hdir, hde, List.filter_append, copyEff, writeEff, filter_flatten_eq,
          flatten_map_nil, apply_ite (List.filter isMutating), isMutating,
          List.map_map, Function.comp_def]

theorem bootstrapFileTrace_dry_isMutating (ts name : List Char)
    (c : Option (List Char)) :
    (bootstrapFileTrace true ts name c).filter isMutating = [] := by
  cases c with
  | none => rfl
  | some c =>
    simp only [bootstrapFileTrace]
    simp [List.filter_append, copyEff, writeEff,
      apply_ite (List.filter isMutating), isMutating]

theorem runBootstrapCompression_dry_isMutating (ts : List Char)
    (files : List Char → Option (List Char)) :
    (runBootstrapCompression true ts files).filter isMutating = [] := by
  unfold runBootstrapCompression
  rw [filter_flatten_eq, List.map_map]
  have h : (List.filter isMutating ∘
      fun name => bootstrapFileTrace true ts name (files name)) =
      fun _ => ([] : List Effect) := by
    funext name
    simp only [Function.comp_apply]
    exact bootstrapFileTrace_dry_isMutating ts name (files name)
  rw [h, flatten_map_nil]

theorem runSkillIndex_dry_isMutating (b : Bool) (dirs : List SkillDir)
    (tools : Option (List Char)) :
    (runSkillIndex true b dirs tools).filter isMutating = [] := by
  cases b with
  | false => rfl
  | true =>
    cases tools <;>
      simp [runSkillIndex, writeEff, apply_ite (List.filter isMutating)]

/-- C6 counterexample: a skill whose index line exceeds 2048 bytes is
written by runSkillIndex without any warning — the trace is a single
write and contains no warn effect. -/
theorem c6_counterexample :
    2048 < (skillIndexLine [skillEntry (List.replicate 2100 'a') "x".data]).length ∧
    runSkillIndex false true [⟨List.replicate 2100 'a', some "x".data⟩] none =
      [Effect.write "TOOLS.md".data
        (skillIndexLine [skillEntry (List.replicate 2100 'a') "x".data] ++ ['\n'])] := by
  have hentry : ∀ dn : List Char,
      skillEntry dn "x".data = dn ++ ":\x7bSKILL.md\x7d".data := by
    intro dn
    have h1 : parseFrontmatter "x".data = [] := rfl
    have h2 : envScan "x".data = [] := rfl
    simp [skillEntry, h1, h2, lookupFm, falsyOr, dedupFirst, dedupFirstGo]
  refine ⟨?_, ?_⟩
  · rw [hentry]
    simp only [skillIndexLine, joinSep, List.length_append, List.length_replicate]
    omega
  · rfl

/-- C6 (amended): the memory index warns exactly when it exceeds 4096
bytes and is written regardless; each bootstrap block warns exactly
when it exceeds 2048 bytes and is written regardless; the skill index
is written without any size check and never warns. -/
theorem c6_size_warnings (input : MemInput) (ts filename content : List Char)
    (files : List Char → Option (List Char)) (baseDirExists : Bool)
    (dirs : List SkillDir) (tools : Option (List Char))
    (hdir : input.memoryDirExists = true)
    (hdaily : (dailyFilesOf input).isEmpty = false)
    (hname : filename ∈ BOOTSTRAP_FILES)
    (hfile : files filename = some content) :
    ((runMemoryConsolidation false input).filter isWarn =
      if 4096 < (indexLineOf (mergedCategorized input)).length then
        [Effect.warn "MEMORY.md".data (indexLineOf (mergedCategorized input)).length]
      else []) ∧
    Effect.write "MEMORY.md".data (indexLineOf (mergedCategorized input) ++ ['\n'])
        ∈ runMemoryConsolidation false input ∧
    ((bootstrapFileTrace false ts filename (some content)).filter isWarn =
      if 2048 < (bootstrapCompressed filename content).length then
        [Effect.warn filename (bootstrapCompressed filename content).length]
      else []) ∧
    Effect.write filename
        (stripExistingMarker content (bootstrapTag filename) ++ "\n\n".data
          ++ bootstrapCompressed filename content ++ ['\n'])
        ∈ runBootstrapCompression false ts files ∧
    (runSkillIndex false baseDirExists dirs tools).filter isWarn = [] := by
  refine ⟨?_, ?_, ?_, ?_, ?_⟩
  · rw [runMemoryConsolidation_filter_isWarn]
    simp [hdir, hdaily]
  · simp [runMemoryConsolidation, hdir, hdaily, writeEff]
  · have h := bootstrapFileTrace_filter_isWarn false ts filename (some content)
    simpa using h
  · unfold runBootstrapCompression
    rw [List.mem_flatten]
    refine ⟨bootstrapFileTrace false ts filename (files filename),
      List.mem_map_of_mem _ hname, ?_⟩
    rw [hfile]
    simp only [bootstrapFileTrace]
    simp [List.mem_append, writeEff, bootstrapCompressed, bootstrapTag, bootstrapTitle]
  · exact runSkillIndex_filter_isWarn false baseDirExists dirs tools

/-- A concrete memory-consolidation input with one stale daily file. -/
def memInputW : MemInput :=
  ⟨true, none, [⟨"d.md".data, true, "## A\n- x\n".data, TWELVE_HOURS⟩],
    fun _ => none, "t".data⟩

/-- A concrete bootstrap file table holding only SOUL.md. -/
def filesW : List Char → Option (List Char) :=
  fun n => if n = "SOUL.md".data then some "## Tone\n- warm\n".data else none

/-- C6 witness: the amended theorem applied at a concrete memory input,
bootstrap file and skill directory. -/
theorem c6_size_warnings_witness :
    ((runMemoryConsolidation false memInputW).filter isWarn =
      if 4096 < (indexLineOf (mergedCategorized memInputW)).length then
        [Effect.warn "MEMORY.md".data (indexLineOf (mergedCategorized memInputW)).length]
      else []) ∧
    Effect.write "MEMORY.md".data (indexLineOf (mergedCategorized memInputW) ++ ['\n'])
        ∈ runMemoryConsolidation false memInputW ∧
    ((bootstrapFileTrace false "t".data "SOUL.md".data
        (some "## Tone\n- warm\n".data)).filter isWarn =
      if 2048 < (bootstrapCompressed "SOUL.md".data "## Tone\n- warm\n".data).length then
        [Effect.warn "SOUL.md".data
          (bootstrapCompressed "SOUL.md".data "## Tone\n- warm\n".data).length]
      else []) ∧
    Effect.write "SOUL.md".data
        (stripExistingMarker "## Tone\n- warm\n".data (bootstrapTag "SOUL.md".data)
          ++ "\n\n".data ++ bootstrapCompressed "SOUL.md".data "## Tone\n- warm\n".data
          ++ ['\n'])
        ∈ runBootstrapCompression false "t".data filesW ∧
    (runSkillIndex false true [⟨"s".data, some "x".data⟩] none).filter isWarn = [] :=
  c6_size_warnings memInputW "t".data "SOUL.md".data "## Tone\n- warm\n".data filesW
    true [⟨"s".data, some "x".data⟩] none (by decide) (by decide) (by decide) (by decide)

/-- C8: under the dry-run flag no write, copy or unlink effect is
performed by any of the three workflows, while the warning effects —
which depend on the parsed, classified and serialized content — are
exactly those of a real run. -/
theorem c8_dry_run (input : MemInput) (ts : List Char)
    (files : List Char → Option (List Char)) (baseDirExists : Bool)
    (dirs : List SkillDir) (tools : Option (List Char)) :
    (runMemoryConsolidation true input).filter isMutating = [] ∧
    (runBootstrapCompression true ts files).filter isMutating = [] ∧
    (runSkillIndex true baseDirExists dirs tools).filter isMutating = [] ∧
    (runMemoryConsolidation true input).filter isWarn =
      (runMemoryConsolidation false input).filter isWarn ∧
    (runBootstrapCompression true ts files).filter isWarn =
      (runBootstrapCompression false ts files).filter isWarn ∧
    (runSkillIndex true baseDirExists dirs tools).filter isWarn =
      (runSkillIndex false baseDirExists dirs tools).filter isWarn :=
  ⟨runMemoryConsolidation_dry_isMutating input,
   runBootstrapCompression_dry_isMutating ts files,
   runSkillIndex_dry_isMutating baseDirExists dirs tools,
   by rw [runMemoryConsolidation_filter_isWarn, runMemoryConsolidation_filter_isWarn],
   runBootstrapCompression_filter_isWarn true ts files,
   by rw [runSkillIndex_filter_isWarn, runSkillIndex_filter_isWarn]⟩

end ContextCompress
